import Mathlib

/-!
Shallow embedding of the bucketed priority queue of `src/PriorityQueue.h`.

The C++ structure is `map<unsigned int, map<string, list<T>>>`: an outer
`std::map` keyed by the digit count of a priority string, whose values are
inner `std::map`s keyed by the priority string itself, each holding a FIFO
`std::list` of elements.  Both `std::map`s are modelled as association lists
kept in strictly ascending key order (the order in which `std::map` iterates),
`std::string` comparison as lexicographic comparison of the character lists,
and the three cached iterators (`curDigitsBucket_`, `curPriorityBucket_`,
`curHighest_`) as an optional triple of outer key, inner key and position
inside the FIFO list.  `std::list` iterators are stable under `push_back` and
are only erased at the cursor itself (which is then recomputed), so a plain
index is a faithful model of `curHighest_`.
-/

namespace PQSpec

/-- Lexicographic comparison of character lists, the semantics of
`std::string operator<` (`std::lexicographical_compare` over characters). -/
def lexLt : List Char → List Char → Bool
  | _, [] => false
  | [], _ :: _ => true
  | a :: as, b :: bs =>
    if a.toNat < b.toNat then true
    else if b.toNat < a.toNat then false
    else lexLt as bs

/-- `std::string` `operator<` on priorities. -/
def strLt (a b : String) : Bool := lexLt a.data b.data

/-- The two direction policies of `PriorityQueue.h`: `Min` (ascending) and
`Max` (descending). -/
inductive Direction
  | min
  | max
deriving DecidableEq

/-- `Min::compare` is `priority < min`; `Max::compare` is `priority > max`,
i.e. `max < priority`. -/
def Direction.compare : Direction → String → String → Bool
  | .min, priority, cur => strLt priority cur
  | .max, priority, cur => strLt cur priority

/-- `Min::iterator` returns `t.begin()` (first entry of the ordered map);
`Max::iterator` returns `--t.end()` (last entry). -/
def Direction.pickList : Direction → List α → Option α
  | .min, l => l.head?
  | .max, l => l.getLast?

/-- Erasing the entry returned by `DIRECTION::iterator` from the ordered map:
the first entry for `Min`, the last for `Max`. -/
def Direction.dropPicked : Direction → List α → List α
  | .min, l => l.tail
  | .max, l => l.dropLast

/-- The single error kind of the queue: `std::runtime_error("Priority queue
is empty.")` thrown by `pop` and `top`. -/
inductive QErr
  | emptyQueue
deriving DecidableEq

/-- `BUCKET`: `map<string, list<T>>`, the priority buckets of one digit
bucket, in ascending priority-string order. -/
abbrev Bucket (T : Type) := List (String × List T)

/-- `BUCKETS`: `map<unsigned int, BUCKET>`, the digit buckets, in ascending
digit-count order. -/
abbrev Buckets (T : Type) := List (Nat × Bucket T)

/-- The `PriorityQueue` state: `buckets_`, `size_` and the cached cursor
(`curDigitsBucket_`, `curPriorityBucket_`, `curHighest_`), the latter as an
optional (digit-count key, priority key, index in the FIFO list) triple.
`none` models the default-constructed / dangling iterators, which the code
never dereferences while `size_ == 0`. -/
structure PQ (T : Type) where
  buckets : Buckets T
  size : Nat
  cur : Option (Nat × String × Nat)
deriving DecidableEq

/-- The default-constructed queue. -/
def mkQueue (T : Type) : PQ T := ⟨[], 0, none⟩

/-- `map::find`: the value stored under key `k` (association lists built by
the operations below have unique keys). -/
def findKey [DecidableEq κ] (k : κ) : List (κ × ν) → Option ν
  | [] => none
  | (k₁, v) :: rest => if k = k₁ then some v else findKey k rest

/-- `map::erase` of the entry with key `k`. -/
def eraseKey [DecidableEq κ] (k : κ) : List (κ × ν) → List (κ × ν)
  | [] => []
  | (k₁, v) :: rest => if k = k₁ then rest else (k₁, v) :: eraseKey k rest

/-- Replacing the value stored under key `k` (in-place mutation through a
`map` iterator). -/
def setKey [DecidableEq κ] (k : κ) (v : ν) : List (κ × ν) → List (κ × ν)
  | [] => []
  | (k₁, v₁) :: rest => if k = k₁ then (k₁, v) :: rest else (k₁, v₁) :: setKey k v rest

/-- The inner-map part of `push`: find or lazily create the priority bucket
for `p` inside a digit bucket, keeping the map sorted, and `push_back` the
element onto its FIFO list. -/
def bucketAppend (p : String) (t : T) : Bucket T → Bucket T
  | [] => [(p, [t])]
  | (p₁, l) :: rest =>
    if p = p₁ then (p₁, l ++ [t]) :: rest
    else if strLt p p₁ then (p, [t]) :: (p₁, l) :: rest
    else (p₁, l) :: bucketAppend p t rest

/-- The outer-map part of `push`: find or lazily create the digit bucket for
digit count `n`, then insert into it with `bucketAppend`. -/
def bucketsAppend (n : Nat) (p : String) (t : T) : Buckets T → Buckets T
  | [] => [(n, [(p, [t])])]
  | (m, b) :: rest =>
    if n = m then (m, bucketAppend p t b) :: rest
    else if n < m then (n, [(p, [t])]) :: (m, b) :: rest
    else (m, b) :: bucketsAppend n p t rest

/-- `*curHighest_`: the element the cached cursor references, when the
cursor's iterators are valid. -/
def curElem? (q : PQ T) : Option T :=
  match q.cur with
  | none => none
  | some (n, p, i) =>
    match findKey n q.buckets with
    | none => none
    | some b =>
      match findKey p b with
      | none => none
      | some l => l[i]?

/-- The priority-bucket key the cursor references. -/
def curPrio? (q : PQ T) : Option String :=
  match q.cur with
  | none => none
  | some (_, p, _) => some p

/-- `PriorityQueue::push`.  `f` models the implicit conversion of the stored
element type `T` to `std::string` that the call
`DIRECTION::compare (priority, *curHighest_)` performs (the reference
instantiations use `T = std::string`, where `f` is the identity).  Note the
source compares the new priority against the cursor's element, and on a move
sets `curHighest_` to `priorityBucket->second.begin ()`, i.e. index 0. -/
def push (d : Direction) (f : T → String) (priority : String) (t : T) (q : PQ T) : PQ T :=
  let numDigits := priority.length
  let buckets₁ := bucketsAppend numDigits priority t q.buckets
  let moved : Bool :=
    (q.size == 0) ||
      (match curElem? q with
       | some e => d.compare priority (f e)
       | none => false)
  { buckets := buckets₁
    size := q.size + 1
    cur := if moved then some (numDigits, priority, 0) else q.cur }

/-- `PriorityQueue::top`: throws when `size_ == 0`, otherwise returns
`*curHighest_`. -/
def top (q : PQ T) : Except QErr T :=
  if q.size = 0 then .error .emptyQueue
  else
    match curElem? q with
    | none => .error .emptyQueue
    | some t => .ok t

/-- Recomputation of the cursor at the end of `pop`:
`curDigitsBucket_ = DIRECTION::iterator (buckets_)`,
`curPriorityBucket_ = DIRECTION::iterator (curDigitsBucket_->second)`,
`curHighest_ = curPriorityBucket_->second.begin ()`. -/
def recomputeCur (d : Direction) (bs : Buckets T) : Option (Nat × String × Nat) :=
  match d.pickList bs with
  | none => none
  | some nb =>
    match d.pickList nb.2 with
    | none => none
    | some pl => some (nb.1, pl.1, 0)

/-- `PriorityQueue::pop`: throw on an empty queue; otherwise capture
`*curHighest_`, erase it from its FIFO list, drop the priority bucket if it
became empty, drop the digit bucket if it became empty, decrement `size_`,
and recompute the cursor when the queue is still non-empty.  The result pairs
the thrown-or-returned value with the post-call state (a failing call leaves
the state untouched: the throw happens before any mutation). -/
def pop (d : Direction) (q : PQ T) : Except QErr T × PQ T :=
  if q.size = 0 then (.error .emptyQueue, q)
  else
    match q.cur with
    | none => (.error .emptyQueue, q)
    | some (n, p, i) =>
      match findKey n q.buckets with
      | none => (.error .emptyQueue, q)
      | some b =>
        match findKey p b with
        | none => (.error .emptyQueue, q)
        | some l =>
          match l[i]? with
          | none => (.error .emptyQueue, q)
          | some t =>
            let l₁ := l.eraseIdx i
            let b₁ := if l₁.isEmpty then eraseKey p b else setKey p l₁ b
            let buckets₁ := if b₁.isEmpty then eraseKey n q.buckets else setKey n b₁ q.buckets
            let size₁ := q.size - 1
            (.ok t,
             { buckets := buckets₁
               size := size₁
               cur := if size₁ = 0 then none else recomputeCur d buckets₁ })

/-- The inner `while` loop of `pop_all` on one digit bucket: repeatedly pick
the extreme priority bucket, splice its whole FIFO list onto the output and
erase it.  Fuel-indexed so that the definition is structural; the loop runs
exactly `length` iterations. -/
def drainBucketFuel (d : Direction) : Nat → Bucket T → List T
  | 0, _ => []
  | fuel + 1, b =>
    match d.pickList b with
    | none => []
    | some pl => pl.2 ++ drainBucketFuel d fuel (d.dropPicked b)

/-- One digit bucket fully drained by the inner `pop_all` loop. -/
def drainBucket (d : Direction) (b : Bucket T) : List T :=
  drainBucketFuel d b.length b

/-- The outer `while` loop of `pop_all`: repeatedly pick the extreme digit
bucket, drain it, and erase it. -/
def popAllFuel (d : Direction) : Nat → Buckets T → List T
  | 0, _ => []
  | fuel + 1, bs =>
    match d.pickList bs with
    | none => []
    | some nb => drainBucket d nb.2 ++ popAllFuel d fuel (d.dropPicked bs)

/-- `PriorityQueue::pop_all`: drains the whole structure into one list and
leaves the queue with no buckets and `size_ = 0` (the dangling cursor of the
C++ object is modelled as `none`; it is never dereferenced while empty). -/
def pop_all (d : Direction) (q : PQ T) : List T × PQ T :=
  (popAllFuel d q.buckets.length q.buckets, mkQueue T)

/-- `PriorityQueue::empty`. -/
def emptyQ (q : PQ T) : Bool := q.size == 0

/-- Folding a sequence of `push` calls over the freshly constructed queue. -/
def buildQ (d : Direction) (f : T → String) (ps : List (String × T)) : PQ T :=
  ps.foldl (fun q pt => push d f pt.1 pt.2 q) (mkQueue T)

/-- Repeatedly calling `pop` until it fails, collecting the returned
elements; fuel-indexed (each successful `pop` decrements `size_` by one, so
`size` steps always suffice). -/
def drainPopFuel (d : Direction) : Nat → PQ T → List T
  | 0, _ => []
  | fuel + 1, q =>
    match pop d q with
    | (.ok t, q₁) => t :: drainPopFuel d fuel q₁
    | (.error _, _) => []

/-- The sequence obtained by calling `pop` repeatedly until the queue is
empty. -/
def drainPop (d : Direction) (q : PQ T) : List T :=
  drainPopFuel d q.size q

/-- The FIFO list stored for the exact priority `p` (empty when absent):
the digit bucket keyed by `p`'s digit count, then the priority bucket keyed
by `p`. -/
def bucketListOf (q : PQ T) (p : String) : List T :=
  match findKey p.length q.buckets with
  | none => []
  | some b =>
    match findKey p b with
    | none => []
    | some l => l

/-- Two-level lookup in a bucket structure: the FIFO list at outer key `k`
and inner key `p`, empty when either level is absent. -/
def lookup2 (bs : Buckets T) (k : Nat) (p : String) : List T :=
  match findKey k bs with
  | none => []
  | some b =>
    match findKey p b with
    | none => []
    | some l => l

/-- The bucket structure after a successful `pop` that removed the head of
the FIFO list `t :: lt` stored at outer key `n` and inner key `p` (proof-side
abbreviation of the two conditional erasures inside `pop`). -/
def popBucketsAfter (n : Nat) (p : String) (b : Bucket T) (lt : List T) (bs : Buckets T) :
    Buckets T :=
  let b₁ := if lt.isEmpty then eraseKey p b else setKey p lt b
  if b₁.isEmpty then eraseKey n bs else setKey n b₁ bs

/-- Boolean strict-ascending pairwise check on a list of keys. -/
def pairwiseB (lt : κ → κ → Bool) : List κ → Bool
  | [] => true
  | x :: xs => xs.all (fun y => lt x y) && pairwiseB lt xs

/-- No digit bucket is empty and no priority bucket's FIFO list is empty:
the structure removes empty buckets eagerly. -/
def noEmpties (bs : Buckets T) : Bool :=
  bs.all (fun nb => !nb.2.isEmpty && nb.2.all (fun pl => !pl.2.isEmpty))

/-- Number of elements stored in one digit bucket. -/
def innerCount (b : Bucket T) : Nat := (b.map (fun pl => pl.2.length)).sum

/-- Number of elements stored in the whole structure. -/
def totalCount (bs : Buckets T) : Nat := (bs.map (fun nb => innerCount nb.2)).sum

/-- Validity of the cached cursor: absent exactly on the empty queue, and
otherwise an index-0 reference into an existing, non-empty priority bucket. -/
def curOk (q : PQ T) : Bool :=
  match q.cur with
  | none => q.size == 0
  | some (n, p, i) =>
    (i == 0) && !(q.size == 0) &&
      (match findKey n q.buckets with
       | none => false
       | some b =>
         match findKey p b with
         | none => false
         | some l => !l.isEmpty)

/-- The structural well-formedness every queue reachable through
`mkQueue`/`push`/`pop`/`pop_all` satisfies: both map levels strictly sorted,
no empty buckets, `size_` equal to the stored element count, and a valid
cursor.  (Deliberately, it does not say the cursor is extreme.) -/
def invB (q : PQ T) : Bool :=
  pairwiseB (fun a b => decide (a < b)) (q.buckets.map Prod.fst) &&
    q.buckets.all (fun nb => pairwiseB strLt (nb.2.map Prod.fst)) &&
    noEmpties q.buckets &&
    (q.size == totalCount q.buckets) &&
    curOk q

/-- The cursor, when present, references index 0 — the front, i.e. oldest
element — of an existing, non-empty priority bucket. -/
def cursorFront (q : PQ T) : Bool :=
  match q.cur with
  | none => true
  | some (n, p, i) =>
    (i == 0) &&
      (match findKey n q.buckets with
       | none => false
       | some b =>
         match findKey p b with
         | none => false
         | some l => !l.isEmpty)

/-- The priority order stated by the specification: digit count first, then
lexicographic comparison.  (Spec-side definition, used to state claims about
extremeness; the code never computes it directly.) -/
def prioLt (a b : String) : Bool :=
  decide (a.length < b.length) || ((a.length == b.length) && strLt a b)

/-- Traversal order of an ordered container under a direction policy:
front-to-back for `Min`, back-to-front for `Max` (proof-side
characterisation of the drain loops). -/
def orient (d : Direction) (l : List α) : List α :=
  match d with
  | .min => l
  | .max => l.reverse

/-- The push sequence of the specification's scenario. -/
def scenarioPushes : List (String × String) :=
  [("30", "3"), ("20", "2a"), ("600", "6c"), ("1", "1"), ("20", "2b")]

/-- The scenario queue under the ascending policy. -/
def qMinScenario : PQ String := buildQ Direction.min id scenarioPushes

/-- The scenario queue under the descending policy. -/
def qMaxScenario : PQ String := buildQ Direction.max id scenarioPushes

/-- An ascending queue holding element "a" at priority "20" and element "b"
at priority "100"; the second push displaces the cursor onto "b". -/
def qBug : PQ String := buildQ Direction.min id [("20", "a"), ("100", "b")]

/-- An ascending queue whose third push has a priority ("25") that is not
lexicographically below the cursor's priority ("20") but is below the
cursor's element payload ("5"). -/
def qCmpBug : PQ String := buildQ Direction.min id [("30", "3"), ("20", "5"), ("25", "1")]

/-- A one-element ascending queue, used to instantiate general theorems. -/
def qOne : PQ String := push Direction.min id "5" "x" (mkQueue String)

/-! ### Order facts about the lexicographic comparison -/

theorem lexLt_nil_right (a : List Char) : lexLt a [] = false := by
  cases a <;> rfl

theorem lexLt_nil_cons (b : Char) (bs : List Char) : lexLt [] (b :: bs) = true := rfl

theorem lexLt_cons_cons (a b : Char) (as bs : List Char) :
    lexLt (a :: as) (b :: bs) =
      if a.toNat < b.toNat then true
      else if b.toNat < a.toNat then false
      else lexLt as bs := rfl

theorem lexLt_irrefl (a : List Char) : lexLt a a = false := by
  induction a with
  | nil => rfl
  | cons c cs ih => simp [lexLt_cons_cons, ih]

theorem lexLt_trans {a b c : List Char} (h₁ : lexLt a b = true) (h₂ : lexLt b c = true) :
    lexLt a c = true := by
  induction a generalizing b c with
  | nil =>
    cases c with
    | nil => cases b <;> simp [lexLt_nil_right] at h₂
    | cons z zs => exact lexLt_nil_cons z zs
  | cons x xs ih =>
    cases b with
    | nil => simp [lexLt_nil_right] at h₁
    | cons y ys =>
      cases c with
      | nil => simp [lexLt_nil_right] at h₂
      | cons z zs =>
        rw [lexLt_cons_cons] at h₁ h₂ ⊢
        rcases Nat.lt_trichotomy x.toNat y.toNat with hxy | hxy | hxy
        · rcases Nat.lt_trichotomy y.toNat z.toNat with hyz | hyz | hyz
          · have hxz : x.toNat < z.toNat := Nat.lt_trans hxy hyz
            simp [hxz]
          · have hxz : x.toNat < z.toNat := by omega
            simp [hxz]
          · rw [if_neg (by omega), if_pos hyz] at h₂
            simp at h₂
        · rcases Nat.lt_trichotomy y.toNat z.toNat with hyz | hyz | hyz
          · have hxz : x.toNat < z.toNat := by omega
            simp [hxz]
          · rw [if_neg (by omega), if_neg (by omega)] at h₁
            rw [if_neg (by omega), if_neg (by omega)] at h₂
            rw [if_neg (by omega), if_neg (by omega)]
            exact ih h₁ h₂
          · rw [if_neg (by omega), if_pos hyz] at h₂
            simp at h₂
        · rw [if_neg (by omega), if_pos hxy] at h₁
          simp at h₁

theorem lexLt_asymm {a b : List Char} (h₁ : lexLt a b = true) : lexLt b a = false := by
  by_contra h
  have h₂ : lexLt b a = true := by
    cases hba : lexLt b a
    · exact absurd hba h
    · rfl
  have := lexLt_trans h₁ h₂
  rw [lexLt_irrefl] at this
  cases this

theorem lexLt_connex {a b : List Char} (h₁ : lexLt a b = false) (h₂ : lexLt b a = false) :
    a = b := by
  induction a generalizing b with
  | nil =>
    cases b with
    | nil => rfl
    | cons y ys => rw [lexLt_nil_cons] at h₁; cases h₁
  | cons x xs ih =>
    cases b with
    | nil => rw [lexLt_nil_cons] at h₂; cases h₂
    | cons y ys =>
      rw [lexLt_cons_cons] at h₁ h₂
      by_cases hxy : x.toNat < y.toNat
      · rw [if_pos hxy] at h₁
        cases h₁
      · by_cases hyx : y.toNat < x.toNat
        · rw [if_pos hyx] at h₂
          cases h₂
        · rw [if_neg hxy, if_neg hyx] at h₁
          rw [if_neg hyx, if_neg hxy] at h₂
          have hn : x.toNat = y.toNat := by omega
          have hx : x = y := Char.eq_of_val_eq (UInt32.ext hn)
          rw [hx, ih h₁ h₂]

theorem strLt_irrefl (a : String) : strLt a a = false := lexLt_irrefl a.data

theorem strLt_trans {a b c : String} (h₁ : strLt a b = true) (h₂ : strLt b c = true) :
    strLt a c = true := lexLt_trans h₁ h₂

theorem strLt_connex {a b : String} (h₁ : strLt a b = false) (h₂ : strLt b a = false) :
    a = b := String.ext (lexLt_connex h₁ h₂)

theorem strLt_ne {a b : String} (h : strLt a b = true) : a ≠ b := by
  intro he
  rw [he, strLt_irrefl] at h
  cases h

/-! ### Association-list toolbox -/

section AList

variable {κ : Type} {ν : Type} [DecidableEq κ]

theorem findKey_eraseKey_ne {k k₁ : κ} (h : k ≠ k₁) (l : List (κ × ν)) :
    findKey k (eraseKey k₁ l) = findKey k l := by
  induction l with
  | nil => rfl
  | cons kv rest ih =>
    obtain ⟨k₂, v⟩ := kv
    by_cases h₁ : k₁ = k₂
    · subst h₁
      simp [eraseKey, findKey, h]
    · by_cases h₂ : k = k₂ <;> simp [eraseKey, findKey, h₁, h₂, ih]

theorem findKey_eq_none_of_not_mem {k : κ} {l : List (κ × ν)}
    (h : k ∉ l.map Prod.fst) : findKey k l = none := by
  induction l with
  | nil => rfl
  | cons kv rest ih =>
    obtain ⟨k₂, v⟩ := kv
    simp only [List.map_cons, List.mem_cons, not_or] at h
    simp only [findKey, if_neg h.1]
    exact ih h.2

theorem findKey_eraseKey_self {k : κ} {l : List (κ × ν)}
    (hnd : (l.map Prod.fst).Nodup) : findKey k (eraseKey k l) = none := by
  induction l with
  | nil => rfl
  | cons kv rest ih =>
    obtain ⟨k₂, v⟩ := kv
    simp only [List.map_cons, List.nodup_cons] at hnd
    by_cases h₁ : k = k₂
    · subst h₁
      simp only [eraseKey, if_pos rfl]
      exact findKey_eq_none_of_not_mem hnd.1
    · simp only [eraseKey, if_neg h₁, findKey, if_neg h₁]
      exact ih hnd.2

theorem findKey_setKey_self {k : κ} {v v₀ : ν} {l : List (κ × ν)}
    (h : findKey k l = some v₀) : findKey k (setKey k v l) = some v := by
  induction l with
  | nil => cases h
  | cons kv rest ih =>
    obtain ⟨k₂, v₂⟩ := kv
    by_cases h₁ : k = k₂
    · simp [setKey, findKey, h₁]
    · simp only [findKey, if_neg h₁] at h
      simp [setKey, findKey, h₁, ih h]

theorem findKey_setKey_ne {k k₁ : κ} {v : ν} (h : k ≠ k₁) (l : List (κ × ν)) :
    findKey k (setKey k₁ v l) = findKey k l := by
  induction l with
  | nil => rfl
  | cons kv rest ih =>
    obtain ⟨k₂, v₂⟩ := kv
    by_cases h₁ : k₁ = k₂
    · subst h₁
      simp [setKey, findKey, h]
    · by_cases h₂ : k = k₂ <;> simp [setKey, findKey, h₁, h₂, ih]

theorem keys_setKey (k : κ) (v : ν) (l : List (κ × ν)) :
    (setKey k v l).map Prod.fst = l.map Prod.fst := by
  induction l with
  | nil => rfl
  | cons kv rest ih =>
    obtain ⟨k₂, v₂⟩ := kv
    by_cases h : k = k₂ <;> simp [setKey, h, ih]

theorem eraseKey_sublist (k : κ) (l : List (κ × ν)) : (eraseKey k l).Sublist l := by
  induction l with
  | nil => exact List.Sublist.refl []
  | cons kv rest ih =>
    obtain ⟨k₂, v₂⟩ := kv
    by_cases h : k = k₂
    · simp only [eraseKey, if_pos h]
      exact List.sublist_cons_self (k₂, v₂) rest
    · simp only [eraseKey, if_neg h]
      exact ih.cons₂ (k₂, v₂)

theorem length_setKey (k : κ) (v : ν) (l : List (κ × ν)) :
    (setKey k v l).length = l.length := by
  induction l with
  | nil => rfl
  | cons kv rest ih =>
    obtain ⟨k₂, v₂⟩ := kv
    by_cases h : k = k₂ <;> simp [setKey, h, ih]

theorem length_eraseKey {k : κ} {v : ν} {l : List (κ × ν)} (h : findKey k l = some v) :
    (eraseKey k l).length + 1 = l.length := by
  induction l with
  | nil => cases h
  | cons kv rest ih =>
    obtain ⟨k₂, v₂⟩ := kv
    by_cases h₁ : k = k₂
    · simp [eraseKey, h₁]
    · simp only [findKey, if_neg h₁] at h
      simp [eraseKey, h₁, ih h]

theorem mem_of_findKey {k : κ} {v : ν} {l : List (κ × ν)} (h : findKey k l = some v) :
    (k, v) ∈ l := by
  induction l with
  | nil => cases h
  | cons kv rest ih =>
    obtain ⟨k₂, v₂⟩ := kv
    by_cases h₁ : k = k₂
    · simp only [findKey, if_pos h₁] at h
      subst h₁
      cases h
      exact List.mem_cons_self _ _
    · simp only [findKey, if_neg h₁] at h
      exact List.mem_cons_of_mem _ (ih h)

theorem mem_setKey {k : κ} {v : ν} {x : κ × ν} {l : List (κ × ν)}
    (h : x ∈ setKey k v l) : x ∈ l ∨ x = (k, v) := by
  induction l with
  | nil => cases h
  | cons kv rest ih =>
    obtain ⟨k₂, v₂⟩ := kv
    by_cases h₁ : k = k₂
    · subst h₁
      simp only [setKey, if_pos rfl] at h
      cases h with
      | head => exact Or.inr rfl
      | tail _ hm => exact Or.inl (List.mem_cons_of_mem _ hm)
    · simp only [setKey, if_neg h₁] at h
      cases h with
      | head => exact Or.inl (List.mem_cons_self _ _)
      | tail _ hm =>
        rcases ih hm with h₂ | h₂
        · exact Or.inl (List.mem_cons_of_mem _ h₂)
        · exact Or.inr h₂

theorem sumVal_eraseKey (g : ν → Nat) {k : κ} {v : ν} {l : List (κ × ν)}
    (h : findKey k l = some v) :
    ((eraseKey k l).map (fun kv => g kv.2)).sum + g v = (l.map (fun kv => g kv.2)).sum := by
  induction l with
  | nil => cases h
  | cons kv rest ih =>
    obtain ⟨k₂, v₂⟩ := kv
    by_cases h₁ : k = k₂
    · simp only [findKey, if_pos h₁] at h
      cases h
      simp only [eraseKey, if_pos h₁, List.map_cons, List.sum_cons]
      omega
    · simp only [findKey, if_neg h₁] at h
      simp only [eraseKey, if_neg h₁, List.map_cons, List.sum_cons]
      have := ih h
      omega

theorem sumVal_setKey (g : ν → Nat) {k : κ} {v v₁ : ν} {l : List (κ × ν)}
    (h : findKey k l = some v) :
    ((setKey k v₁ l).map (fun kv => g kv.2)).sum + g v
      = (l.map (fun kv => g kv.2)).sum + g v₁ := by
  induction l with
  | nil => cases h
  | cons kv rest ih =>
    obtain ⟨k₂, v₂⟩ := kv
    by_cases h₁ : k = k₂
    · simp only [findKey, if_pos h₁] at h
      cases h
      simp only [setKey, if_pos h₁, List.map_cons, List.sum_cons]
      omega
    · simp only [findKey, if_neg h₁] at h
      simp only [setKey, if_neg h₁, List.map_cons, List.sum_cons]
      have := ih h
      omega

theorem findKey_head {k : κ} {v : ν} {rest : List (κ × ν)} :
    findKey k ((k, v) :: rest) = some v := by
  simp [findKey]

theorem findKey_getLast {l : List (κ × ν)} (h : l ≠ [])
    (hnd : (l.map Prod.fst).Nodup) :
    findKey (l.getLast h).1 l = some (l.getLast h).2 := by
  induction l with
  | nil => exact absurd rfl h
  | cons kv rest ih =>
    obtain ⟨k₂, v₂⟩ := kv
    cases rest with
    | nil => simp [findKey, List.getLast]
    | cons kv₃ rest₃ =>
      have hg : ((k₂, v₂) :: kv₃ :: rest₃).getLast h = (kv₃ :: rest₃).getLast (by simp) := by
        simp [List.getLast]
      rw [hg]
      rw [List.map_cons, List.nodup_cons] at hnd
      have hmem : (kv₃ :: rest₃).getLast (by simp) ∈ kv₃ :: rest₃ := List.getLast_mem _
      have hne : ((kv₃ :: rest₃).getLast (by simp)).1 ≠ k₂ := by
        intro he
        have hm₂ : ((kv₃ :: rest₃).getLast (by simp)).1 ∈ (kv₃ :: rest₃).map Prod.fst :=
          List.mem_map_of_mem Prod.fst hmem
        exact hnd.1 (he ▸ hm₂)
      simp only [findKey, if_neg hne]
      exact ih (by simp) hnd.2

end AList

/-! ### Pairwise/sortedness bridges -/

theorem pairwiseB_iff (lt : κ → κ → Bool) (l : List κ) :
    pairwiseB lt l = true ↔ List.Pairwise (fun a b => lt a b = true) l := by
  induction l with
  | nil => simp [pairwiseB]
  | cons x xs ih =>
    simp [pairwiseB, Bool.and_eq_true, List.all_eq_true, ih, List.pairwise_cons]

theorem strLt_total_of_ne {a b : String} (hne : a ≠ b) (h : strLt a b = false) :
    strLt b a = true := by
  cases hba : strLt b a
  · exact absurd (strLt_connex h hba) hne
  · rfl

theorem nodup_keys_of_pairwise_strLt {l : List String}
    (h : List.Pairwise (fun a b => strLt a b = true) l) : l.Nodup :=
  h.imp fun hab => strLt_ne hab

theorem nodup_keys_of_pairwise_natLt {l : List Nat}
    (h : List.Pairwise (fun a b => decide (a < b) = true) l) : l.Nodup :=
  h.imp fun hab => by simp at hab; omega

/-! ### Behaviour of the `push` insertion helpers -/

section Insertion

variable {T : Type}

theorem bucketAppend_ne_nil (p : String) (t : T) (b : Bucket T) :
    bucketAppend p t b ≠ [] := by
  cases b with
  | nil => simp [bucketAppend]
  | cons pl rest =>
    obtain ⟨p₁, l⟩ := pl
    by_cases h₁ : p = p₁
    · simp [bucketAppend, h₁]
    · by_cases h₂ : strLt p p₁ = true <;> simp [bucketAppend, h₁, h₂]

theorem mem_bucketAppend {p : String} {t : T} {x : String × List T} {b : Bucket T}
    (h : x ∈ bucketAppend p t b) : x.1 = p ∨ x.1 ∈ b.map Prod.fst := by
  induction b with
  | nil =>
    simp only [bucketAppend, List.mem_singleton] at h
    exact Or.inl (by rw [h])
  | cons pl rest ih =>
    obtain ⟨p₁, l⟩ := pl
    by_cases h₁ : p = p₁
    · simp only [bucketAppend, if_pos h₁] at h
      cases h with
      | head => exact Or.inl h₁.symm
      | tail _ hm => exact Or.inr (by simp only [List.map_cons, List.mem_cons]; exact Or.inr (List.mem_map_of_mem Prod.fst hm))
    · by_cases h₂ : strLt p p₁ = true
      · simp only [bucketAppend, if_neg h₁, if_pos h₂] at h
        cases h with
        | head => exact Or.inl rfl
        | tail _ hm => exact Or.inr (List.mem_map_of_mem Prod.fst hm)
      · simp only [bucketAppend, if_neg h₁, if_neg h₂] at h
        cases h with
        | head => exact Or.inr (by simp)
        | tail _ hm =>
          rcases ih hm with h₃ | h₃
          · exact Or.inl h₃
          · exact Or.inr (by simp only [List.map_cons, List.mem_cons]; exact Or.inr h₃)

theorem snd_mem_bucketAppend {p : String} {t : T} {x : String × List T} {b : Bucket T}
    (h : x ∈ bucketAppend p t b) (hb : ∀ pl ∈ b, pl.2 ≠ []) : x.2 ≠ [] := by
  induction b with
  | nil =>
    simp only [bucketAppend, List.mem_singleton] at h
    rw [h]
    simp
  | cons pl rest ih =>
    obtain ⟨p₁, l⟩ := pl
    by_cases h₁ : p = p₁
    · simp only [bucketAppend, if_pos h₁] at h
      cases h with
      | head => simp
      | tail _ hm => exact hb _ (List.mem_cons_of_mem _ hm)
    · by_cases h₂ : strLt p p₁ = true
      · simp only [bucketAppend, if_neg h₁, if_pos h₂] at h
        cases h with
        | head => simp
        | tail _ hm => exact hb _ hm
      · simp only [bucketAppend, if_neg h₁, if_neg h₂] at h
        cases h with
        | head => exact hb _ (List.mem_cons_self _ _)
        | tail _ hm => exact ih hm fun pl hpl => hb _ (List.mem_cons_of_mem _ hpl)

theorem pairwise_bucketAppend {p : String} {t : T} {b : Bucket T}
    (h : List.Pairwise (fun x y => strLt x.1 y.1 = true) b) :
    List.Pairwise (fun x y => strLt x.1 y.1 = true) (bucketAppend p t b) := by
  induction b with
  | nil => simp [bucketAppend]
  | cons pl rest ih =>
    obtain ⟨p₁, l⟩ := pl
    rw [List.pairwise_cons] at h
    by_cases h₁ : p = p₁
    · simp only [bucketAppend, if_pos h₁]
      rw [List.pairwise_cons]
      exact ⟨h.1, h.2⟩
    · by_cases h₂ : strLt p p₁ = true
      · simp only [bucketAppend, if_neg h₁, if_pos h₂]
        rw [List.pairwise_cons]
        refine ⟨?_, List.Pairwise.cons h.1 h.2⟩
        intro x hx
        cases hx with
        | head => exact h₂
        | tail _ hm => exact strLt_trans h₂ (h.1 x hm)
      · simp only [bucketAppend, if_neg h₁, if_neg h₂]
        rw [List.pairwise_cons]
        refine ⟨?_, ih h.2⟩
        intro x hx
        rcases mem_bucketAppend hx with h₃ | h₃
        · have hf : strLt p p₁ = false := by
            cases hs : strLt p p₁ with
            | false => rfl
            | true => exact absurd hs h₂
          rw [h₃]
          exact strLt_total_of_ne h₁ hf
        · rcases List.mem_map.mp h₃ with ⟨y, hy, hyx⟩
          rw [← hyx]
          exact h.1 y hy

theorem innerCount_bucketAppend (p : String) (t : T) (b : Bucket T) :
    innerCount (bucketAppend p t b) = innerCount b + 1 := by
  induction b with
  | nil => simp [bucketAppend, innerCount]
  | cons pl rest ih =>
    obtain ⟨p₁, l⟩ := pl
    by_cases h₁ : p = p₁
    · simp [bucketAppend, h₁, innerCount]
      omega
    · by_cases h₂ : strLt p p₁ = true
      · simp [bucketAppend, h₁, h₂, innerCount]
        omega
      · simp only [bucketAppend, if_neg h₁, if_neg h₂]
        simp only [innerCount, List.map_cons, List.sum_cons] at ih ⊢
        omega

theorem findKey_bucketAppend_ne {p₀ p : String} (h : p₀ ≠ p) (t : T) (b : Bucket T) :
    findKey p₀ (bucketAppend p t b) = findKey p₀ b := by
  induction b with
  | nil => simp [bucketAppend, findKey, h]
  | cons pl rest ih =>
    obtain ⟨p₁, l⟩ := pl
    by_cases h₁ : p = p₁
    · subst h₁
      simp [bucketAppend, findKey, h]
    · by_cases h₂ : strLt p p₁ = true
      · simp [bucketAppend, findKey, h₁, h₂, h]
      · by_cases h₃ : p₀ = p₁ <;> simp [bucketAppend, findKey, h₁, h₂, h₃, ih]

theorem findKey_bucketAppend_self (p : String) (t : T) {b : Bucket T}
    (hp : List.Pairwise (fun x y => strLt x.1 y.1 = true) b) :
    findKey p (bucketAppend p t b) = some (((findKey p b).getD []) ++ [t]) := by
  induction b with
  | nil => simp [bucketAppend, findKey]
  | cons pl rest ih =>
    obtain ⟨p₁, l⟩ := pl
    rw [List.pairwise_cons] at hp
    by_cases h₁ : p = p₁
    · simp [bucketAppend, findKey, h₁]
    · by_cases h₂ : strLt p p₁ = true
      · simp only [bucketAppend, if_neg h₁, if_pos h₂, findKey, if_pos rfl, if_neg h₁]
        have hnone : findKey p rest = none := by
          apply findKey_eq_none_of_not_mem
          intro hm
          rcases List.mem_map.mp hm with ⟨y, hy, hyx⟩
          have := strLt_trans h₂ (hp.1 y hy)
          rw [hyx, strLt_irrefl] at this
          cases this
        simp [hnone]
      · simp [bucketAppend, findKey, h₁, h₂, ih hp.2]

theorem bucketsAppend_ne_nil (n : Nat) (p : String) (t : T) (bs : Buckets T) :
    bucketsAppend n p t bs ≠ [] := by
  cases bs with
  | nil => simp [bucketsAppend]
  | cons nb rest =>
    obtain ⟨m, b⟩ := nb
    by_cases h₁ : n = m
    · simp [bucketsAppend, h₁]
    · by_cases h₂ : n < m <;> simp [bucketsAppend, h₁, h₂]

theorem mem_bucketsAppend {n : Nat} {p : String} {t : T} {x : Nat × Bucket T} {bs : Buckets T}
    (h : x ∈ bucketsAppend n p t bs) :
    (x.1 = n ∧ (x.2 = [(p, [t])] ∨ ∃ b₀, x.2 = bucketAppend p t b₀ ∧ (n, b₀) ∈ bs)) ∨ x ∈ bs := by
  induction bs with
  | nil =>
    simp only [bucketsAppend, List.mem_singleton] at h
    exact Or.inl (by rw [h]; exact ⟨rfl, Or.inl rfl⟩)
  | cons nb rest ih =>
    obtain ⟨m, b⟩ := nb
    by_cases h₁ : n = m
    · subst h₁
      simp only [bucketsAppend, if_pos rfl] at h
      cases h with
      | head => exact Or.inl ⟨rfl, Or.inr ⟨b, rfl, List.mem_cons_self _ _⟩⟩
      | tail _ hm => exact Or.inr (List.mem_cons_of_mem _ hm)
    · by_cases h₂ : n < m
      · simp only [bucketsAppend, if_neg h₁, if_pos h₂] at h
        cases h with
        | head => exact Or.inl ⟨rfl, Or.inl rfl⟩
        | tail _ hm => exact Or.inr hm
      · simp only [bucketsAppend, if_neg h₁, if_neg h₂] at h
        cases h with
        | head => exact Or.inr (List.mem_cons_self _ _)
        | tail _ hm =>
          rcases ih hm with h₃ | h₃
          · exact Or.inl ⟨h₃.1, by
              rcases h₃.2 with h₄ | ⟨b₀, hb₀, hmem⟩
              · exact Or.inl h₄
              · exact Or.inr ⟨b₀, hb₀, List.mem_cons_of_mem _ hmem⟩⟩
          · exact Or.inr (List.mem_cons_of_mem _ h₃)

theorem keys_mem_bucketsAppend {n : Nat} {p : String} {t : T} {x : Nat × Bucket T}
    {bs : Buckets T} (h : x ∈ bucketsAppend n p t bs) : x.1 = n ∨ x.1 ∈ bs.map Prod.fst := by
  rcases mem_bucketsAppend h with h₁ | h₁
  · exact Or.inl h₁.1
  · exact Or.inr (List.mem_map_of_mem Prod.fst h₁)

theorem pairwise_bucketsAppend {n : Nat} {p : String} {t : T} {bs : Buckets T}
    (h : List.Pairwise (fun x y => decide (x.1 < y.1) = true) bs) :
    List.Pairwise (fun x y => decide (x.1 < y.1) = true) (bucketsAppend n p t bs) := by
  induction bs with
  | nil => simp [bucketsAppend]
  | cons nb rest ih =>
    obtain ⟨m, b⟩ := nb
    rw [List.pairwise_cons] at h
    by_cases h₁ : n = m
    · simp only [bucketsAppend, if_pos h₁]
      rw [List.pairwise_cons]
      exact ⟨h.1, h.2⟩
    · by_cases h₂ : n < m
      · simp only [bucketsAppend, if_neg h₁, if_pos h₂]
        rw [List.pairwise_cons]
        refine ⟨?_, List.Pairwise.cons h.1 h.2⟩
        intro x hx
        cases hx with
        | head => simpa using h₂
        | tail _ hm =>
          have := h.1 x hm
          simp at this ⊢
          omega
      · simp only [bucketsAppend, if_neg h₁, if_neg h₂]
        rw [List.pairwise_cons]
        refine ⟨?_, ih h.2⟩
        intro x hx
        rcases keys_mem_bucketsAppend hx with h₃ | h₃
        · simp [h₃]
          omega
        · rcases List.mem_map.mp h₃ with ⟨y, hy, hyx⟩
          have := h.1 y hy
          simp at this ⊢
          omega

theorem totalCount_bucketsAppend (n : Nat) (p : String) (t : T) (bs : Buckets T) :
    totalCount (bucketsAppend n p t bs) = totalCount bs + 1 := by
  induction bs with
  | nil => simp [bucketsAppend, totalCount, innerCount, bucketAppend]
  | cons nb rest ih =>
    obtain ⟨m, b⟩ := nb
    by_cases h₁ : n = m
    · simp [bucketsAppend, h₁, totalCount, innerCount_bucketAppend]
      omega
    · by_cases h₂ : n < m
      · simp [bucketsAppend, h₁, h₂, totalCount, innerCount, bucketAppend]
        omega
      · simp only [bucketsAppend, if_neg h₁, if_neg h₂]
        simp only [totalCount, List.map_cons, List.sum_cons] at ih ⊢
        omega

theorem findKey_bucketsAppend_ne {k n : Nat} (h : k ≠ n) (p : String) (t : T) (bs : Buckets T) :
    findKey k (bucketsAppend n p t bs) = findKey k bs := by
  induction bs with
  | nil => simp [bucketsAppend, findKey, h]
  | cons nb rest ih =>
    obtain ⟨m, b⟩ := nb
    by_cases h₁ : n = m
    · subst h₁
      simp [bucketsAppend, findKey, h]
    · by_cases h₂ : n < m
      · simp [bucketsAppend, findKey, h₁, h₂, h]
      · by_cases h₃ : k = m <;> simp [bucketsAppend, findKey, h₁, h₂, h₃, ih]

theorem findKey_bucketsAppend_self (n : Nat) (p : String) (t : T) {bs : Buckets T}
    (hp : List.Pairwise (fun x y => decide (x.1 < y.1) = true) bs) :
    findKey n (bucketsAppend n p t bs) = some (bucketAppend p t ((findKey n bs).getD [])) := by
  induction bs with
  | nil => simp [bucketsAppend, findKey, bucketAppend]
  | cons nb rest ih =>
    obtain ⟨m, b⟩ := nb
    rw [List.pairwise_cons] at hp
    by_cases h₁ : n = m
    · simp [bucketsAppend, findKey, h₁, bucketAppend]
    · by_cases h₂ : n < m
      · simp only [bucketsAppend, if_neg h₁, if_pos h₂, findKey, if_pos rfl, if_neg h₁]
        have hnone : findKey n rest = none := by
          apply findKey_eq_none_of_not_mem
          intro hm
          rcases List.mem_map.mp hm with ⟨y, hy, hyx⟩
          have := hp.1 y hy
          simp at this
          omega
        simp [hnone, bucketAppend]
      · simp [bucketsAppend, findKey, h₁, h₂, ih hp.2]

end Insertion

/-! ### The structural invariant and its preservation by `push` -/

section Invariant

variable {T : Type}

theorem noEmpties_iff (bs : Buckets T) :
    noEmpties bs = true ↔ ∀ nb ∈ bs, nb.2 ≠ [] ∧ ∀ pl ∈ nb.2, pl.2 ≠ [] := by
  simp [noEmpties, List.all_eq_true, Bool.and_eq_true, Bool.not_eq_true',
    List.isEmpty_eq_false]

theorem invB_eq (q : PQ T) :
    invB q = true ↔
      List.Pairwise (fun x y => decide (x.1 < y.1) = true) q.buckets ∧
      (∀ nb ∈ q.buckets, List.Pairwise (fun x y => strLt x.1 y.1 = true) nb.2) ∧
      noEmpties q.buckets = true ∧
      q.size = totalCount q.buckets ∧
      curOk q = true := by
  rw [invB]
  simp only [Bool.and_eq_true, List.all_eq_true, pairwiseB_iff, List.pairwise_map,
    beq_iff_eq, and_assoc]

theorem curOk_unpack {q : PQ T} (h : curOk q = true) (hs : q.size ≠ 0) :
    ∃ n p b l, q.cur = some (n, p, 0) ∧ findKey n q.buckets = some b ∧
      findKey p b = some l ∧ l ≠ [] := by
  cases hc : q.cur with
  | none =>
    simp only [curOk, hc] at h
    simp at h
    exact absurd h hs
  | some npi =>
    obtain ⟨n, p, i⟩ := npi
    simp only [curOk, hc] at h
    cases hb : findKey n q.buckets with
    | none => simp only [hb] at h; simp at h
    | some b =>
      simp only [hb] at h
      cases hl : findKey p b with
      | none => simp only [hl] at h; simp at h
      | some l =>
        simp only [hl] at h
        simp only [Bool.and_eq_true, Bool.not_eq_true', List.isEmpty_eq_false,
          beq_iff_eq] at h
        exact ⟨n, p, b, l, by rw [h.1.1], hb, hl, h.2⟩

theorem cursorFront_of_curOk {q : PQ T} (h : curOk q = true) : cursorFront q = true := by
  cases hc : q.cur with
  | none => simp [cursorFront, hc]
  | some npi =>
    obtain ⟨n, p, i⟩ := npi
    simp only [curOk, hc] at h
    simp only [cursorFront, hc]
    cases hb : findKey n q.buckets with
    | none => simp only [hb] at h; simp at h
    | some b =>
      simp only [hb] at h ⊢
      cases hl : findKey p b with
      | none => simp only [hl] at h; simp at h
      | some l =>
        simp only [hl] at h ⊢
        simp only [Bool.and_eq_true] at h
        simp [h.1.1, h.2]

theorem push_buckets (d : Direction) (f : T → String) (p : String) (t : T) (q : PQ T) :
    (push d f p t q).buckets = bucketsAppend p.length p t q.buckets := rfl

theorem push_size (d : Direction) (f : T → String) (p : String) (t : T) (q : PQ T) :
    (push d f p t q).size = q.size + 1 := rfl

theorem push_cur (d : Direction) (f : T → String) (p : String) (t : T) (q : PQ T) :
    (push d f p t q).cur =
      if ((q.size == 0) ||
          (match curElem? q with
           | some e => d.compare p (f e)
           | none => false)) = true
      then some (p.length, p, 0) else q.cur := by
  rw [push]

theorem curOk_push (d : Direction) (f : T → String) (p : String) (t : T) {q : PQ T}
    (h₁ : List.Pairwise (fun x y => decide (x.1 < y.1) = true) q.buckets)
    (h₂ : ∀ nb ∈ q.buckets, List.Pairwise (fun x y => strLt x.1 y.1 = true) nb.2)
    (h₅ : curOk q = true) : curOk (push d f p t q) = true := by
  have hself : findKey p.length (push d f p t q).buckets
      = some (bucketAppend p t ((findKey p.length q.buckets).getD [])) := by
    rw [push_buckets]
    exact findKey_bucketsAppend_self p.length p t h₁
  cases hmv : ((q.size == 0) ||
      (match curElem? q with
       | some e => d.compare p (f e)
       | none => false)) with
  | true =>
    have hcur : (push d f p t q).cur = some (p.length, p, 0) := by
      rw [push_cur, if_pos hmv]
    have hb₀ : List.Pairwise (fun x y => strLt x.1 y.1 = true)
        ((findKey p.length q.buckets).getD []) := by
      cases hb : findKey p.length q.buckets with
      | none => simp
      | some b => simpa using h₂ _ (mem_of_findKey hb)
    simp only [curOk, hcur, hself, findKey_bucketAppend_self p t hb₀]
    simp [push_size]
  | false =>
    have hcur : (push d f p t q).cur = q.cur := by
      rw [push_cur, if_neg (by rw [hmv]; exact Bool.false_ne_true)]
    have hs : q.size ≠ 0 := by
      intro h0
      rw [Bool.or_eq_false_iff] at hmv
      have := hmv.1
      simp [h0] at this
    obtain ⟨n₀, p₀, b₀, l₀, hc₀, hb₀, hl₀, hne₀⟩ := curOk_unpack h₅ hs
    simp only [curOk, hcur, hc₀]
    by_cases hn : n₀ = p.length
    · subst hn
      have hpb₀ : List.Pairwise (fun x y => strLt x.1 y.1 = true) b₀ :=
        h₂ _ (mem_of_findKey hb₀)
      by_cases hp : p₀ = p
      · subst hp
        simp only [hself, hb₀, Option.getD_some, findKey_bucketAppend_self p₀ t hpb₀]
        simp [push_size]
      · simp only [hself, hb₀, Option.getD_some, findKey_bucketAppend_ne hp t, hl₀]
        simp [push_size, hne₀]
    · simp only [push_buckets, findKey_bucketsAppend_ne hn p t, hb₀, hl₀]
      simp [push_size, hne₀]

theorem push_invB (d : Direction) (f : T → String) (p : String) (t : T) {q : PQ T}
    (hq : invB q = true) : invB (push d f p t q) = true := by
  rw [invB_eq] at hq
  obtain ⟨h₁, h₂, h₃, h₄, h₅⟩ := hq
  rw [invB_eq]
  refine ⟨?_, ?_, ?_, ?_, curOk_push d f p t h₁ h₂ h₅⟩
  · rw [push_buckets]
    exact pairwise_bucketsAppend h₁
  · intro nb hnb
    rw [push_buckets] at hnb
    rcases mem_bucketsAppend hnb with ⟨hkey, hval⟩ | hmem
    · rcases hval with h' | ⟨b₀, hb₀, hmem₀⟩
      · rw [h']
        simp
      · rw [hb₀]
        exact pairwise_bucketAppend (h₂ _ hmem₀)
    · exact h₂ _ hmem
  · rw [push_buckets, noEmpties_iff]
    rw [noEmpties_iff] at h₃
    intro nb hnb
    rcases mem_bucketsAppend hnb with ⟨hkey, hval⟩ | hmem
    · rcases hval with h' | ⟨b₀, hb₀, hmem₀⟩
      · rw [h']
        refine ⟨by simp, ?_⟩
        intro pl hpl
        simp only [List.mem_singleton] at hpl
        rw [hpl]
        simp
      · rw [hb₀]
        refine ⟨bucketAppend_ne_nil _ _ _, ?_⟩
        intro pl hpl
        exact snd_mem_bucketAppend hpl fun x hx => (h₃ _ hmem₀).2 x hx
    · exact h₃ _ hmem
  · rw [push_size, push_buckets, totalCount_bucketsAppend, ← h₄]

theorem invB_mkQueue : invB (mkQueue T) = true := rfl

theorem invB_buildQ (d : Direction) (f : T → String) (ps : List (String × T)) :
    invB (buildQ d f ps) = true := by
  rw [buildQ]
  have h : ∀ q : PQ T, invB q = true →
      invB (ps.foldl (fun q pt => push d f pt.1 pt.2 q) q) = true := by
    induction ps with
    | nil => intro q hq; exact hq
    | cons pt rest ih =>
      intro q hq
      exact ih _ (push_invB d f pt.1 pt.2 hq)
  exact h _ invB_mkQueue

end Invariant

/-! ### Behaviour of `pop` on well-formed states -/

section PopAnalysis

variable {T : Type}

theorem pairwise_keys_setKey {κ : Type} [DecidableEq κ] {ν : Type} {R : κ → κ → Prop}
    {l : List (κ × ν)} {k : κ} {v : ν}
    (h : List.Pairwise (fun x y => R x.1 y.1) l) :
    List.Pairwise (fun x y => R x.1 y.1) (setKey k v l) := by
  have h₁ : List.Pairwise R ((setKey k v l).map Prod.fst) := by
    rw [keys_setKey]
    exact List.pairwise_map.mpr h
  exact List.pairwise_map.mp h₁

theorem pick_findKey {κ : Type} [DecidableEq κ] {ν : Type} (d : Direction)
    {l : List (κ × ν)} (hnd : (l.map Prod.fst).Nodup) (hne : l ≠ []) :
    ∃ kv, d.pickList l = some kv ∧ findKey kv.1 l = some kv.2 ∧ kv ∈ l := by
  cases d with
  | min =>
    cases l with
    | nil => exact absurd rfl hne
    | cons kv rest =>
      obtain ⟨k, v⟩ := kv
      exact ⟨(k, v), rfl, findKey_head, List.mem_cons_self _ _⟩
  | max =>
    refine ⟨l.getLast hne, ?_, findKey_getLast hne hnd, List.getLast_mem hne⟩
    simp [Direction.pickList, List.getLast?_eq_getLast l hne]

theorem totalCount_ne_zero {bs : Buckets T} (h : totalCount bs ≠ 0) : bs ≠ [] := by
  intro he
  rw [he] at h
  exact h rfl

theorem recomputeCur_ok (d : Direction) {bs : Buckets T}
    (h₁ : List.Pairwise (fun x y => decide (x.1 < y.1) = true) bs)
    (h₂ : ∀ nb ∈ bs, List.Pairwise (fun x y => strLt x.1 y.1 = true) nb.2)
    (h₃ : noEmpties bs = true) (hne : bs ≠ []) :
    ∃ n p b l, recomputeCur d bs = some (n, p, 0) ∧ findKey n bs = some b ∧
      findKey p b = some l ∧ l ≠ [] := by
  have hnd : (bs.map Prod.fst).Nodup :=
    nodup_keys_of_pairwise_natLt (List.pairwise_map.mpr h₁)
  obtain ⟨nb, hpick, hfind, hmem⟩ := pick_findKey d hnd hne
  have hbne : nb.2 ≠ [] := ((noEmpties_iff bs).mp h₃ nb hmem).1
  have hndb : (nb.2.map Prod.fst).Nodup :=
    nodup_keys_of_pairwise_strLt (List.pairwise_map.mpr (h₂ nb hmem))
  obtain ⟨pl, hpick₂, hfind₂, hmem₂⟩ := pick_findKey d hndb hbne
  refine ⟨nb.1, pl.1, nb.2, pl.2, ?_, hfind, hfind₂,
    ((noEmpties_iff bs).mp h₃ nb hmem).2 pl hmem₂⟩
  simp only [recomputeCur, hpick, hpick₂]

theorem pop_eq_ok (d : Direction) {q : PQ T} {n : Nat} {p : String} {b : Bucket T}
    {t : T} {lt : List T}
    (hs : q.size ≠ 0) (hc : q.cur = some (n, p, 0)) (hb : findKey n q.buckets = some b)
    (hl : findKey p b = some (t :: lt)) :
    pop d q =
      (.ok t,
       { buckets := popBucketsAfter n p b lt q.buckets
         size := q.size - 1
         cur := if q.size - 1 = 0 then none
                else recomputeCur d (popBucketsAfter n p b lt q.buckets) }) := by
  rw [pop, if_neg hs]
  simp only [hc, hb, hl, List.getElem?_cons_zero, List.eraseIdx_zero, List.tail_cons,
    popBucketsAfter]

theorem bucketListOf_eq_lookup2 (q : PQ T) (p : String) :
    bucketListOf q p = lookup2 q.buckets p.length p := rfl

theorem setKey_ne_nil {κ : Type} [DecidableEq κ] {ν : Type} {l : List (κ × ν)}
    (h : l ≠ []) (k : κ) (v : ν) : setKey k v l ≠ [] := by
  intro he
  have hlen := length_setKey k v l
  rw [he] at hlen
  simp only [List.length_nil] at hlen
  exact h (List.length_eq_zero.mp hlen.symm)

theorem eq_singleton_of_eraseKey_nil {κ : Type} [DecidableEq κ] {ν : Type}
    {k : κ} {v : ν} {l : List (κ × ν)}
    (hf : findKey k l = some v) (he : eraseKey k l = []) : l = [(k, v)] := by
  cases l with
  | nil => cases hf
  | cons kv rest =>
    obtain ⟨k₁, v₁⟩ := kv
    by_cases h₁ : k = k₁
    · subst h₁
      simp only [eraseKey, if_pos rfl] at he
      subst he
      simp only [findKey, if_pos rfl] at hf
      cases hf
      rfl
    · simp only [eraseKey, if_neg h₁] at he
      simp at he

theorem findKey_none_no_mem {κ : Type} [DecidableEq κ] {ν : Type} {k : κ} {v : ν}
    {l : List (κ × ν)} (h : (k, v) ∈ l) (hn : findKey k l = none) : False := by
  induction l with
  | nil => cases h
  | cons kv rest ih =>
    obtain ⟨k₁, v₁⟩ := kv
    by_cases h₁ : k = k₁
    · rw [findKey, if_pos h₁] at hn
      cases hn
    · rw [findKey, if_neg h₁] at hn
      cases h with
      | head => exact h₁ rfl
      | tail _ hm => exact ih hm hn

theorem lookup2_popBuckets {bs : Buckets T} {n : Nat} {p : String} {b : Bucket T}
    {t : T} {lt : List T}
    (h₁ : List.Pairwise (fun x y => decide (x.1 < y.1) = true) bs)
    (h₂ : ∀ nb ∈ bs, List.Pairwise (fun x y => strLt x.1 y.1 = true) nb.2)
    (hb : findKey n bs = some b) (hl : findKey p b = some (t :: lt)) :
    ∀ k p₀, lookup2 (popBucketsAfter n p b lt bs) k p₀ =
      if k = n ∧ p₀ = p then (lookup2 bs k p₀).tail else lookup2 bs k p₀ := by
  intro k p₀
  have hndo : (bs.map Prod.fst).Nodup :=
    nodup_keys_of_pairwise_natLt (List.pairwise_map.mpr h₁)
  have hndb : (b.map Prod.fst).Nodup :=
    nodup_keys_of_pairwise_strLt (List.pairwise_map.mpr (h₂ _ (mem_of_findKey hb)))
  have hbne : b ≠ [] := by
    intro he
    rw [he] at hl
    cases hl
  by_cases hk : k = n
  · subst hk
    by_cases hlt : lt.isEmpty
    · have hltnil : lt = [] := List.isEmpty_iff.mp hlt
      subst hltnil
      by_cases hb₁ : (eraseKey p b).isEmpty
      · have hsing : b = [(p, t :: [])] :=
          eq_singleton_of_eraseKey_nil hl (List.isEmpty_iff.mp hb₁)
        have hbk : popBucketsAfter k p b [] bs = eraseKey k bs := by
          simp only [popBucketsAfter, List.isEmpty_nil, eq_self_iff_true, if_true, if_pos hb₁]
        rw [hbk]
        by_cases hp : p₀ = p
        · subst hp
          rw [if_pos ⟨rfl, rfl⟩]
          simp only [lookup2, findKey_eraseKey_self hndo, hb, hl, List.tail_cons]
        · rw [if_neg (by intro hcon; exact hp hcon.2)]
          simp only [lookup2, findKey_eraseKey_self hndo, hb, hsing, findKey, if_neg hp]
      · have hbk : popBucketsAfter k p b [] bs = setKey k (eraseKey p b) bs := by
          simp only [popBucketsAfter, List.isEmpty_nil, eq_self_iff_true, if_true, if_neg hb₁]
        rw [hbk]
        by_cases hp : p₀ = p
        · subst hp
          rw [if_pos ⟨rfl, rfl⟩]
          simp only [lookup2, findKey_setKey_self hb, findKey_eraseKey_self hndb, hb, hl,
            List.tail_cons]
        · rw [if_neg (by intro hcon; exact hp hcon.2)]
          simp only [lookup2, findKey_setKey_self hb, findKey_eraseKey_ne hp, hb]
    · have hb₁ : ¬ (setKey p lt b).isEmpty = true := by
        intro hsk
        exact setKey_ne_nil hbne p lt (List.isEmpty_iff.mp hsk)
      have hbk : popBucketsAfter k p b lt bs = setKey k (setKey p lt b) bs := by
        simp only [popBucketsAfter, if_neg hlt, if_neg hb₁]
      rw [hbk]
      by_cases hp : p₀ = p
      · subst hp
        rw [if_pos ⟨rfl, rfl⟩]
        simp only [lookup2, findKey_setKey_self hb, findKey_setKey_self hl, hb, hl,
          List.tail_cons]
      · rw [if_neg (by intro hcon; exact hp hcon.2)]
        simp only [lookup2, findKey_setKey_self hb, findKey_setKey_ne hp, hb]
  · rw [if_neg (by intro hcon; exact hk hcon.1)]
    rw [popBucketsAfter]
    by_cases hbb : (if lt.isEmpty then eraseKey p b else setKey p lt b).isEmpty
    · simp only [if_pos hbb, lookup2, findKey_eraseKey_ne hk]
    · simp only [if_neg hbb, lookup2, findKey_setKey_ne hk]

theorem popBuckets_wf {bs : Buckets T} {n : Nat} {p : String} {b : Bucket T}
    {t : T} {lt : List T}
    (h₁ : List.Pairwise (fun x y => decide (x.1 < y.1) = true) bs)
    (h₂ : ∀ nb ∈ bs, List.Pairwise (fun x y => strLt x.1 y.1 = true) nb.2)
    (h₃ : noEmpties bs = true)
    (hb : findKey n bs = some b) (hl : findKey p b = some (t :: lt)) :
    List.Pairwise (fun x y => decide (x.1 < y.1) = true) (popBucketsAfter n p b lt bs) ∧
    (∀ nb ∈ popBucketsAfter n p b lt bs,
      List.Pairwise (fun x y => strLt x.1 y.1 = true) nb.2) ∧
    noEmpties (popBucketsAfter n p b lt bs) = true ∧
    totalCount (popBucketsAfter n p b lt bs) + 1 = totalCount bs := by
  have hpb : List.Pairwise (fun x y => strLt x.1 y.1 = true) b := h₂ _ (mem_of_findKey hb)
  have hbne : b ≠ [] := by
    intro he
    rw [he] at hl
    cases hl
  have hb₁pair : List.Pairwise (fun x y => strLt x.1 y.1 = true)
      (if lt.isEmpty then eraseKey p b else setKey p lt b) := by
    by_cases hlt : lt.isEmpty
    · rw [if_pos hlt]
      exact List.Pairwise.sublist (eraseKey_sublist p b) hpb
    · rw [if_neg hlt]
      exact @pairwise_keys_setKey String _ (List T) (fun a c => strLt a c = true) b p lt hpb
  have hb₁sub : ∀ pl ∈ (if lt.isEmpty then eraseKey p b else setKey p lt b),
      pl ∈ b ∨ pl = (p, lt) := by
    intro pl hpl
    by_cases hlt : lt.isEmpty
    · rw [if_pos hlt] at hpl
      exact Or.inl ((eraseKey_sublist p b).subset hpl)
    · rw [if_neg hlt] at hpl
      exact mem_setKey hpl
  have hb₁count : innerCount (if lt.isEmpty then eraseKey p b else setKey p lt b) + 1
      = innerCount b := by
    by_cases hlt : lt.isEmpty
    · have hltnil : lt = [] := List.isEmpty_iff.mp hlt
      subst hltnil
      simp only [List.isEmpty_nil, eq_self_iff_true, if_true]
      have hsum := sumVal_eraseKey List.length hl
      simp only [innerCount]
      simp only [List.length_cons, List.length_nil] at hsum
      omega
    · rw [if_neg hlt]
      have hsum := @sumVal_setKey String (List T) _ List.length p (t :: lt) lt b hl
      simp only [innerCount]
      simp only [List.length_cons] at hsum
      omega
  have hne₃ := (noEmpties_iff bs).mp h₃
  refine ⟨?_, ?_, ?_, ?_⟩
  · rw [popBucketsAfter]
    by_cases hbb : (if lt.isEmpty then eraseKey p b else setKey p lt b).isEmpty
    · simp only [if_pos hbb]
      exact List.Pairwise.sublist (eraseKey_sublist n bs) h₁
    · simp only [if_neg hbb]
      exact @pairwise_keys_setKey Nat _ (Bucket T) (fun a c => decide (a < c) = true) bs n _ h₁
  · intro nb hnb
    rw [popBucketsAfter] at hnb
    by_cases hbb : (if lt.isEmpty then eraseKey p b else setKey p lt b).isEmpty
    · simp only [if_pos hbb] at hnb
      exact h₂ _ ((eraseKey_sublist n bs).subset hnb)
    · simp only [if_neg hbb] at hnb
      rcases mem_setKey hnb with hm | hm
      · exact h₂ _ hm
      · rw [hm]
        exact hb₁pair
  · rw [noEmpties_iff]
    intro nb hnb
    rw [popBucketsAfter] at hnb
    by_cases hbb : (if lt.isEmpty then eraseKey p b else setKey p lt b).isEmpty
    · simp only [if_pos hbb] at hnb
      exact hne₃ _ ((eraseKey_sublist n bs).subset hnb)
    · simp only [if_neg hbb] at hnb
      rcases mem_setKey hnb with hm | hm
      · exact hne₃ _ hm
      · rw [hm]
        refine ⟨?_, ?_⟩
        · intro he
          have he₂ : (if lt.isEmpty then eraseKey p b else setKey p lt b) = [] := he
          rw [he₂] at hbb
          exact hbb rfl
        · intro pl hpl
          rcases hb₁sub pl hpl with hm₂ | hm₂
          · exact (hne₃ _ (mem_of_findKey hb)).2 pl hm₂
          · rw [hm₂]
            by_cases hlt : lt.isEmpty
            · exfalso
              rw [hm₂, if_pos hlt] at hpl
              have hnd : (b.map Prod.fst).Nodup :=
                nodup_keys_of_pairwise_strLt (List.pairwise_map.mpr hpb)
              exact findKey_none_no_mem hpl (findKey_eraseKey_self hnd)
            · intro he
              have he₂ : lt = [] := he
              exact hlt (by rw [he₂]; rfl)
  · rw [popBucketsAfter]
    by_cases hbb : (if lt.isEmpty then eraseKey p b else setKey p lt b).isEmpty
    · simp only [if_pos hbb]
      have h₄ := sumVal_eraseKey innerCount hb
      have hzero : innerCount (if lt.isEmpty then eraseKey p b else setKey p lt b) = 0 := by
        rw [List.isEmpty_iff.mp hbb]
        rfl
      simp only [totalCount] at h₄ ⊢
      omega
    · simp only [if_neg hbb]
      have h₄ := @sumVal_setKey Nat (Bucket T) _ innerCount n b
        (if lt.isEmpty then eraseKey p b else setKey p lt b) bs hb
      simp only [totalCount] at h₄ ⊢
      omega

theorem pop_analysis (d : Direction) {q : PQ T} (hq : invB q = true) (hs : q.size ≠ 0) :
    ∃ n p b t lt q₁, q.cur = some (n, p, 0) ∧ findKey n q.buckets = some b ∧
      findKey p b = some (t :: lt) ∧ pop d q = (.ok t, q₁) ∧
      invB q₁ = true ∧ q₁.size + 1 = q.size ∧
      ∀ p₀ : String, bucketListOf q₁ p₀ =
        if p₀.length = n ∧ p₀ = p then (bucketListOf q p₀).tail else bucketListOf q p₀ := by
  rw [invB_eq] at hq
  obtain ⟨h₁, h₂, h₃, h₄, h₅⟩ := hq
  obtain ⟨n, p, b, l, hc, hb, hl, hlne⟩ := curOk_unpack h₅ hs
  cases l with
  | nil => exact absurd rfl hlne
  | cons t lt =>
    have hpe := pop_eq_ok d hs hc hb hl
    obtain ⟨hw₁, hw₂, hw₃, hw₄⟩ := popBuckets_wf h₁ h₂ h₃ hb hl
    refine ⟨n, p, b, t, lt, _, hc, hb, hl, hpe, ?_, ?_, ?_⟩
    · rw [invB_eq]
      refine ⟨hw₁, hw₂, hw₃, ?_, ?_⟩
      · show q.size - 1 = totalCount (popBucketsAfter n p b lt q.buckets)
        omega
      · by_cases hz : q.size - 1 = 0
        · simp [curOk, hz]
        · have hBSne : popBucketsAfter n p b lt q.buckets ≠ [] :=
            totalCount_ne_zero (by omega)
          obtain ⟨n₁, p₁, b₁, l₁, hrc, hfb, hfl, hlne₁⟩ :=
            recomputeCur_ok d hw₁ hw₂ hw₃ hBSne
          have hl₁ : l₁.isEmpty = false := by
            cases l₁ with
            | nil => exact absurd rfl hlne₁
            | cons x xs => rfl
          simp [curOk, hz, hrc, hfb, hfl, hl₁]
    · show q.size - 1 + 1 = q.size
      omega
    · intro p₀
      have hev := lookup2_popBuckets h₁ h₂ hb hl p₀.length p₀
      simp only [bucketListOf_eq_lookup2]
      exact hev

theorem pop_invB (d : Direction) {q : PQ T} (hq : invB q = true) :
    invB (pop d q).2 = true := by
  by_cases hs : q.size = 0
  · rw [pop, if_pos hs]
    exact hq
  · obtain ⟨n, p, b, t, lt, q₁, hc, hb, hl, hpe, hinv, hsz, hev⟩ := pop_analysis d hq hs
    rw [hpe]
    exact hinv

theorem pop_fst_eq_top (d : Direction) (q : PQ T) : (pop d q).1 = top q := by
  by_cases hs : q.size = 0
  · simp [pop, top, hs]
  · cases hcq : q.cur with
    | none => simp [pop, top, hs, curElem?, hcq]
    | some npi =>
      obtain ⟨n, p, i⟩ := npi
      cases hb : findKey n q.buckets with
      | none => simp [pop, top, hs, curElem?, hcq, hb]
      | some b =>
        cases hl : findKey p b with
        | none => simp [pop, top, hs, curElem?, hcq, hb, hl]
        | some l =>
          cases hg : l[i]? with
          | none => simp [pop, top, hs, curElem?, hcq, hb, hl, hg]
          | some t => simp [pop, top, hs, curElem?, hcq, hb, hl, hg]

theorem pop_ok_size (d : Direction) {q : PQ T} {t : T} {q₁ : PQ T}
    (h : pop d q = (.ok t, q₁)) : q₁.size + 1 = q.size := by
  by_cases hs : q.size = 0
  · rw [pop, if_pos hs] at h
    simp at h
  · cases hcq : q.cur with
    | none =>
      simp only [pop, if_neg hs, hcq] at h
      simp at h
    | some npi =>
      obtain ⟨n, p, i⟩ := npi
      simp only [pop, if_neg hs, hcq] at h
      cases hb : findKey n q.buckets with
      | none => simp only [hb] at h; simp at h
      | some b =>
        simp only [hb] at h
        cases hl : findKey p b with
        | none => simp only [hl] at h; simp at h
        | some l =>
          simp only [hl] at h
          cases hg : l[i]? with
          | none => simp only [hg] at h; simp at h
          | some t₁ =>
            simp only [hg, Prod.mk.injEq] at h
            have hq₁ := h.2
            rw [← hq₁]
            show q.size - 1 + 1 = q.size
            omega

end PopAnalysis

/-! ### The `pop_all` drain loops as flattened traversals -/

section PopAll

variable {T : Type}

theorem mem_orient (d : Direction) {x : α} {l : List α} (h : x ∈ l) : x ∈ orient d l := by
  cases d with
  | min => exact h
  | max => exact List.mem_reverse.mpr h

theorem drainBucketFuel_eq (d : Direction) :
    ∀ (fuel : Nat) (b : Bucket T), b.length ≤ fuel →
      drainBucketFuel d fuel b = ((orient d b).map Prod.snd).flatten := by
  intro fuel
  induction fuel with
  | zero =>
    intro b hb
    have hnil : b = [] := List.length_eq_zero.mp (Nat.le_zero.mp hb)
    subst hnil
    cases d <;> rfl
  | succ fuel ih =>
    intro b hb
    cases d with
    | min =>
      cases b with
      | nil => rfl
      | cons x xs =>
        simp only [drainBucketFuel, Direction.pickList, List.head?_cons,
          Direction.dropPicked, List.tail_cons]
        rw [ih xs (Nat.le_of_succ_le_succ hb)]
        simp [orient]
    | max =>
      cases b with
      | nil => rfl
      | cons x xs =>
        have hne : (x :: xs) ≠ [] := by simp
        simp only [drainBucketFuel, Direction.pickList,
          List.getLast?_eq_getLast _ hne, Direction.dropPicked]
        rw [ih ((x :: xs).dropLast)
          (by rw [List.length_dropLast]; exact Nat.le_of_succ_le_succ hb)]
        conv_rhs => rw [show orient Direction.max (x :: xs)
          = (x :: xs).reverse from rfl, ← List.dropLast_append_getLast hne]
        simp [List.reverse_append, orient]

theorem drainBucket_eq (d : Direction) (b : Bucket T) :
    drainBucket d b = ((orient d b).map Prod.snd).flatten :=
  drainBucketFuel_eq d b.length b (Nat.le_refl _)

theorem popAllFuel_eq (d : Direction) :
    ∀ (fuel : Nat) (bs : Buckets T), bs.length ≤ fuel →
      popAllFuel d fuel bs
        = ((orient d bs).map (fun nb => drainBucket d nb.2)).flatten := by
  intro fuel
  induction fuel with
  | zero =>
    intro bs hb
    have hnil : bs = [] := List.length_eq_zero.mp (Nat.le_zero.mp hb)
    subst hnil
    cases d <;> rfl
  | succ fuel ih =>
    intro bs hb
    cases d with
    | min =>
      cases bs with
      | nil => rfl
      | cons x xs =>
        simp only [popAllFuel, Direction.pickList, List.head?_cons,
          Direction.dropPicked, List.tail_cons]
        rw [ih xs (Nat.le_of_succ_le_succ hb)]
        simp [orient]
    | max =>
      cases bs with
      | nil => rfl
      | cons x xs =>
        have hne : (x :: xs) ≠ [] := by simp
        simp only [popAllFuel, Direction.pickList,
          List.getLast?_eq_getLast _ hne, Direction.dropPicked]
        rw [ih ((x :: xs).dropLast)
          (by rw [List.length_dropLast]; exact Nat.le_of_succ_le_succ hb)]
        conv_rhs => rw [show orient Direction.max (x :: xs)
          = (x :: xs).reverse from rfl, ← List.dropLast_append_getLast hne]
        simp [List.reverse_append, orient]

theorem pop_all_fst_eq (d : Direction) (q : PQ T) :
    (pop_all d q).1 = ((orient d q.buckets).map (fun nb => drainBucket d nb.2)).flatten :=
  popAllFuel_eq d q.buckets.length q.buckets (Nat.le_refl _)

theorem lookup2_sublist_pop_all (d : Direction) (q : PQ T) (k : Nat) (p : String) :
    (lookup2 q.buckets k p).Sublist (pop_all d q).1 := by
  cases hfb : findKey k q.buckets with
  | none =>
    simp only [lookup2, hfb]
    exact List.nil_sublist _
  | some b =>
    cases hfl : findKey p b with
    | none =>
      simp only [lookup2, hfb, hfl]
      exact List.nil_sublist _
    | some l =>
      have hls : lookup2 q.buckets k p = l := by simp only [lookup2, hfb, hfl]
      rw [hls]
      have h₁ : l.Sublist (drainBucket d b) := by
        rw [drainBucket_eq]
        exact List.sublist_flatten_of_mem
          (List.mem_map_of_mem Prod.snd (mem_orient d (mem_of_findKey hfl)))
      have h₂ : (drainBucket d b).Sublist (pop_all d q).1 := by
        rw [pop_all_fst_eq]
        exact List.sublist_flatten_of_mem
          (List.mem_map_of_mem (fun nb => drainBucket d nb.2)
            (mem_orient d (mem_of_findKey hfb)))
      exact h₁.trans h₂

theorem buckets_nil_of_count_zero {bs : Buckets T} (h : totalCount bs = 0)
    (hne : noEmpties bs = true) : bs = [] := by
  cases bs with
  | nil => rfl
  | cons nb rest =>
    exfalso
    obtain ⟨m, b⟩ := nb
    have h₁ := ((noEmpties_iff _).mp hne) (m, b) (List.mem_cons_self _ _)
    cases b with
    | nil => exact h₁.1 rfl
    | cons pl b₁ =>
      have h₂ := h₁.2 pl (List.mem_cons_self _ _)
      cases hp : pl.2 with
      | nil => exact h₂ hp
      | cons e es =>
        simp only [totalCount, innerCount, List.map_cons, List.sum_cons] at h
        have hlen : pl.2.length = es.length + 1 := by rw [hp]; rfl
        omega

theorem buckets_nil_of_size_zero {q : PQ T} (hq : invB q = true) (hs : q.size = 0) :
    q.buckets = [] := by
  rw [invB_eq] at hq
  exact buckets_nil_of_count_zero (by omega) hq.2.2.1

theorem bucketListOf_nil_of_size_zero {q : PQ T} (hq : invB q = true) (hs : q.size = 0)
    (p : String) : bucketListOf q p = [] := by
  simp only [bucketListOf_eq_lookup2, lookup2, buckets_nil_of_size_zero hq hs, findKey]

theorem bucketListOf_sublist_drainPopFuel (d : Direction) :
    ∀ (fuel : Nat) (q : PQ T), invB q = true → q.size ≤ fuel → ∀ p : String,
      (bucketListOf q p).Sublist (drainPopFuel d fuel q) := by
  intro fuel
  induction fuel with
  | zero =>
    intro q hq hle p
    rw [bucketListOf_nil_of_size_zero hq (Nat.le_zero.mp hle)]
    exact List.nil_sublist _
  | succ fuel ih =>
    intro q hq hle p
    by_cases hs : q.size = 0
    · rw [bucketListOf_nil_of_size_zero hq hs]
      exact List.nil_sublist _
    · obtain ⟨n, p₁, b, t, lt, q₁, hc, hb, hl, hpe, hinv, hsz, hev⟩ := pop_analysis d hq hs
      have hstep : drainPopFuel d (fuel + 1) q = t :: drainPopFuel d fuel q₁ := by
        simp only [drainPopFuel, hpe]
      rw [hstep]
      have hrec := ih q₁ hinv (by omega) p
      have hevp := hev p
      by_cases hcase : p.length = n ∧ p = p₁
      · have hq_p : bucketListOf q p = t :: lt := by
          rw [bucketListOf_eq_lookup2]
          rw [show p.length = n from hcase.1, show p = p₁ from hcase.2]
          simp only [lookup2, hb, hl]
        have hq₁_p : bucketListOf q₁ p = lt := by
          rw [hevp, if_pos hcase, hq_p, List.tail_cons]
        rw [hq_p]
        rw [hq₁_p] at hrec
        exact hrec.cons₂ t
      · have hq₁_p : bucketListOf q₁ p = bucketListOf q p := by
          rw [hevp, if_neg hcase]
        rw [hq₁_p] at hrec
        exact hrec.cons t

theorem bucketListOf_sublist_drainPop (d : Direction) {q : PQ T} (hq : invB q = true)
    (p : String) : (bucketListOf q p).Sublist (drainPop d q) :=
  bucketListOf_sublist_drainPopFuel d q.size q hq (Nat.le_refl _) p

end PopAll

/-! ### The FIFO list of a priority across `push` sequences -/

section BuildQ

variable {T : Type}

theorem bucketListOf_push (d : Direction) (f : T → String) {q : PQ T} (hq : invB q = true)
    (p₁ : String) (t : T) (p : String) :
    bucketListOf (push d f p₁ t q) p =
      if p = p₁ then bucketListOf q p ++ [t] else bucketListOf q p := by
  rw [invB_eq] at hq
  obtain ⟨h₁, h₂, -, -, -⟩ := hq
  by_cases hp : p = p₁
  · subst hp
    rw [if_pos rfl]
    have houter := findKey_bucketsAppend_self p.length p t h₁
    have hinner : List.Pairwise (fun x y => strLt x.1 y.1 = true)
        ((findKey p.length q.buckets).getD []) := by
      cases hfb : findKey p.length q.buckets with
      | none => simp
      | some b => simpa using h₂ _ (mem_of_findKey hfb)
    have hself := findKey_bucketAppend_self p t hinner
    rw [bucketListOf_eq_lookup2, bucketListOf_eq_lookup2]
    simp only [lookup2, push_buckets, houter, hself]
    cases hfb : findKey p.length q.buckets with
    | none => simp [findKey]
    | some b =>
      cases hfl : findKey p b with
      | none => simp [hfl]
      | some l => simp [hfl]
  · rw [if_neg hp]
    by_cases hlen : p.length = p₁.length
    · have houter := findKey_bucketsAppend_self p₁.length p₁ t h₁
      rw [bucketListOf_eq_lookup2, bucketListOf_eq_lookup2]
      simp only [lookup2, push_buckets, hlen, houter, findKey_bucketAppend_ne hp t]
      cases hfb : findKey p₁.length q.buckets with
      | none => simp [findKey]
      | some b => rfl
    · rw [bucketListOf_eq_lookup2, bucketListOf_eq_lookup2]
      simp only [lookup2, push_buckets, findKey_bucketsAppend_ne hlen p₁ t q.buckets]

theorem bucketListOf_buildQ (d : Direction) (f : T → String) (ps : List (String × T))
    (p : String) :
    bucketListOf (buildQ d f ps) p = (ps.filter (fun x => x.1 == p)).map Prod.snd := by
  have h : ∀ q : PQ T, invB q = true →
      bucketListOf (ps.foldl (fun q pt => push d f pt.1 pt.2 q) q) p
        = bucketListOf q p ++ (ps.filter (fun x => x.1 == p)).map Prod.snd := by
    induction ps with
    | nil =>
      intro q hq
      simp
    | cons pt rest ih =>
      intro q hq
      simp only [List.foldl_cons]
      rw [ih _ (push_invB d f pt.1 pt.2 hq), bucketListOf_push d f hq pt.1 pt.2 p]
      by_cases hp : p = pt.1
      · have hbeq : (pt.1 == p) = true := beq_iff_eq.mpr hp.symm
        rw [if_pos hp]
        simp only [List.filter_cons, hbeq, if_true, List.map_cons, List.append_assoc,
          List.cons_append, List.nil_append]
      · have hbeq : (pt.1 == p) = false := by
          rw [beq_eq_false_iff_ne]
          intro he
          exact hp he.symm
        rw [if_neg hp]
        simp only [List.filter_cons, hbeq, Bool.false_eq_true, if_false]
  have hmk := h (mkQueue T) invB_mkQueue
  rw [buildQ, hmk, show bucketListOf (mkQueue T) p = [] from rfl, List.nil_append]

end BuildQ

/-! ### The empty-string priority drains first under the ascending policy -/

section EmptyPriority

variable {T : Type}

theorem strLt_empty_right (p : String) : strLt p "" = false := lexLt_nil_right p.data

theorem length_ne_zero_of_ne_empty {p : String} (hp : p ≠ "") : p.length ≠ 0 := by
  intro h0
  exact hp (String.ext ((List.length_eq_zero.mp h0).trans rfl))

theorem findKey_zero_head {bs : Buckets T}
    (hp : List.Pairwise (fun x y => decide (x.1 < y.1) = true) bs)
    {b₀ : Bucket T} (h : findKey 0 bs = some b₀) : ∃ bs₁, bs = (0, b₀) :: bs₁ := by
  cases bs with
  | nil => cases h
  | cons nb rest =>
    obtain ⟨m, b⟩ := nb
    by_cases hm : (0 : Nat) = m
    · subst hm
      rw [findKey, if_pos rfl] at h
      cases h
      exact ⟨rest, rfl⟩
    · exfalso
      rw [findKey, if_neg hm] at h
      rw [List.pairwise_cons] at hp
      have := hp.1 (0, b₀) (mem_of_findKey h)
      simp at this

theorem findKey_empty_head {b : Bucket T}
    (hp : List.Pairwise (fun x y => strLt x.1 y.1 = true) b)
    {l : List T} (h : findKey "" b = some l) : ∃ b₁, b = ("", l) :: b₁ := by
  cases b with
  | nil => cases h
  | cons pl rest =>
    obtain ⟨p₁, l₁⟩ := pl
    by_cases hm : "" = p₁
    · subst hm
      rw [findKey, if_pos rfl] at h
      cases h
      exact ⟨rest, rfl⟩
    · exfalso
      rw [findKey, if_neg hm] at h
      rw [List.pairwise_cons] at hp
      have := hp.1 ("", l) (mem_of_findKey h)
      rw [strLt_empty_right p₁] at this
      cases this

theorem lookup2_sublist_drainFlatten (d : Direction) (bs : Buckets T) (k : Nat)
    (p : String) :
    (lookup2 bs k p).Sublist
      (((orient d bs).map (fun nb => drainBucket d nb.2)).flatten) := by
  cases hfb : findKey k bs with
  | none =>
    simp only [lookup2, hfb]
    exact List.nil_sublist _
  | some b =>
    cases hfl : findKey p b with
    | none =>
      simp only [lookup2, hfb, hfl]
      exact List.nil_sublist _
    | some l =>
      have hls : lookup2 bs k p = l := by simp only [lookup2, hfb, hfl]
      rw [hls]
      have h₁ : l.Sublist (drainBucket d b) := by
        rw [drainBucket_eq]
        exact List.sublist_flatten_of_mem
          (List.mem_map_of_mem Prod.snd (mem_orient d (mem_of_findKey hfl)))
      have h₂ : (drainBucket d b).Sublist
          (((orient d bs).map (fun nb => drainBucket d nb.2)).flatten) :=
        List.sublist_flatten_of_mem
          (List.mem_map_of_mem (fun nb => drainBucket d nb.2)
            (mem_orient d (mem_of_findKey hfb)))
      exact h₁.trans h₂

theorem min_pop_all_empty_prefix {q : PQ T} (hq : invB q = true) :
    ∃ rest, (pop_all Direction.min q).1 = lookup2 q.buckets 0 "" ++ rest := by
  rw [invB_eq] at hq
  obtain ⟨h₁, h₂, -, -, -⟩ := hq
  cases hfb : findKey 0 q.buckets with
  | none => exact ⟨(pop_all Direction.min q).1, by simp [lookup2, hfb]⟩
  | some b₀ =>
    cases hfl : findKey "" b₀ with
    | none => exact ⟨(pop_all Direction.min q).1, by simp [lookup2, hfb, hfl]⟩
    | some l =>
      obtain ⟨bs₁, hbs⟩ := findKey_zero_head h₁ hfb
      obtain ⟨b₁, hb₀⟩ := findKey_empty_head (h₂ _ (mem_of_findKey hfb)) hfl
      refine ⟨(b₁.map Prod.snd).flatten
        ++ (bs₁.map (fun nb => drainBucket Direction.min nb.2)).flatten, ?_⟩
      rw [pop_all_fst_eq]
      have horient : orient Direction.min q.buckets = (0, b₀) :: bs₁ := hbs
      rw [horient, List.map_cons, List.flatten_cons, drainBucket_eq]
      have hob : orient Direction.min b₀ = ("", l) :: b₁ := hb₀
      rw [hob, List.map_cons, List.flatten_cons]
      simp only [lookup2, hfb, hfl, List.append_assoc]

theorem min_pop_all_empty_before {q : PQ T} (hq : invB q = true) (p : String)
    (hp : p ≠ "") :
    (lookup2 q.buckets 0 "" ++ bucketListOf q p).Sublist (pop_all Direction.min q).1 := by
  have hq' := hq
  rw [invB_eq] at hq'
  obtain ⟨h₁, h₂, -, -, -⟩ := hq'
  cases hfb : findKey 0 q.buckets with
  | none =>
    simp only [lookup2, hfb, List.nil_append]
    rw [bucketListOf_eq_lookup2]
    exact lookup2_sublist_pop_all Direction.min q p.length p
  | some b₀ =>
    cases hfl : findKey "" b₀ with
    | none =>
      simp only [lookup2, hfb, hfl, List.nil_append]
      rw [bucketListOf_eq_lookup2]
      exact lookup2_sublist_pop_all Direction.min q p.length p
    | some l =>
      obtain ⟨bs₁, hbs⟩ := findKey_zero_head h₁ hfb
      obtain ⟨b₁, hb₀⟩ := findKey_empty_head (h₂ _ (mem_of_findKey hfb)) hfl
      have hE : lookup2 q.buckets 0 "" = l := by simp only [lookup2, hfb, hfl]
      have hBp : bucketListOf q p = lookup2 bs₁ p.length p := by
        rw [bucketListOf_eq_lookup2, lookup2, lookup2, hbs, findKey,
          if_neg (length_ne_zero_of_ne_empty hp)]
      have hout : (pop_all Direction.min q).1
          = (l ++ (b₁.map Prod.snd).flatten)
            ++ (bs₁.map (fun nb => drainBucket Direction.min nb.2)).flatten := by
        rw [pop_all_fst_eq]
        have horient : orient Direction.min q.buckets = (0, b₀) :: bs₁ := hbs
        rw [horient, List.map_cons, List.flatten_cons, drainBucket_eq]
        have hob : orient Direction.min b₀ = ("", l) :: b₁ := hb₀
        rw [hob, List.map_cons, List.flatten_cons]
      rw [hE, hBp, hout]
      refine List.Sublist.append (List.sublist_append_left l _) ?_
      have := lookup2_sublist_drainFlatten Direction.min bs₁ p.length p
      have horient₁ : orient Direction.min bs₁ = bs₁ := rfl
      rw [horient₁] at this
      exact this

end EmptyPriority

/-! ### Claim theorems -/

section Claims

variable {T : Type}

/-- Claim C1 (evaluation of the code bug): after pushing ("20","a") and then
("100","b") into an ascending queue, the cached cursor references element "b"
of priority "100" and `top` returns it, although the queue still holds "a"
under priority "20", which is strictly more extreme under the digit-count-
then-lexicographic order; so the cursor-extremeness invariant is violated
after a `push`. -/
theorem c1_cursor_not_extreme_after_push :
    top qBug = Except.ok "b" ∧
    curPrio? qBug = some "100" ∧
    findKey 2 qBug.buckets = some [("20", ["a"])] ∧
    prioLt "20" "100" = true :=
  ⟨rfl, rfl, rfl, rfl⟩

/-- Claim C2 (evaluation of the code bug): on the third push of `qCmpBug`,
the claimed comparison `isMoreExtreme("25", cursor.priority = "20")` is false
— so the claim predicts an unchanged cursor still referencing element "5" —
yet the code moves the cursor to the new element "1" of priority "25",
because `push` actually compares the new priority against the cursor's
element payload ("5"), not against its priority. -/
theorem c2_push_compares_payload_not_priority :
    Direction.compare Direction.min "25" "20" = false ∧
    qCmpBug.cur = some (2, "25", 0) ∧
    top qCmpBug = Except.ok "1" :=
  ⟨rfl, rfl, rfl⟩

/-- Claim C3 (evaluation of the code bug): on the reachable state `qBug`,
`pop_all` yields ["a", "b"] while repeatedly calling `pop` until empty yields
["b", "a"], so the two drain orders disagree (the first `pop` removes the
misplaced cursor element).  `pop_all` does leave the queue with size 0. -/
theorem c3_pop_all_differs_from_repeated_pop :
    (pop_all Direction.min qBug).1 = ["a", "b"] ∧
    drainPop Direction.min qBug = ["b", "a"] ∧
    (pop_all Direction.min qBug).2.size = 0 ∧
    (["a", "b"] : List String) ≠ ["b", "a"] :=
  ⟨rfl, rfl, rfl, by decide⟩

/-- Claim C4, counterexample: pushing the scenario sequence into a Descending
queue does not yield the reverse of the Ascending order, because the FIFO
pair "2a","2b" keeps insertion order in both directions. -/
theorem c4_descending_not_reverse :
    (pop_all Direction.max qMaxScenario).1 ≠ (pop_all Direction.min qMinScenario).1.reverse := by
  decide

/-- Claim C4, amended: the Ascending scenario yields ["1","2a","2b","3","6c"]
(digit count first, then lexicographic), and the Descending scenario yields
["6c","3","2a","2b","1"] — the priority order reversed at bucket granularity
with FIFO order among equal priorities preserved, not the element-wise
reverse. -/
theorem c4_scenario_outputs :
    (pop_all Direction.min qMinScenario).1 = ["1", "2a", "2b", "3", "6c"] ∧
    (pop_all Direction.max qMaxScenario).1 = ["6c", "3", "2a", "2b", "1"] :=
  ⟨rfl, rfl⟩

/-- Claim C5: on every queue, `top` returns exactly the value an immediately
following `pop` would return (they read the same cached cursor and fail in
the same states), and every successful `pop` decreases `size` by exactly
one. -/
theorem c5_top_matches_pop_and_size (d : Direction) (q : PQ T) :
    (pop d q).1 = top q ∧
    (∀ (t : T) (q₁ : PQ T), pop d q = (Except.ok t, q₁) → q₁.size + 1 = q.size) :=
  ⟨pop_fst_eq_top d q, fun _ _ h => pop_ok_size d h⟩

/-- Witness for C5 at the concrete one-element queue `qOne`. -/
theorem c5_witness :
    (pop Direction.min qOne).1 = top qOne ∧
    (pop Direction.min qOne).2.size + 1 = qOne.size :=
  ⟨(c5_top_matches_pop_and_size Direction.min qOne).1,
   (c5_top_matches_pop_and_size Direction.min qOne).2 "x" (pop Direction.min qOne).2 rfl⟩

/-- Claim C6 (FIFO tie-break): for every push sequence and every priority
`p`, the elements pushed with priority `p`, in push order, embed as a
sublist both of the `pop_all` output and of the sequence obtained by popping
until empty; in particular, of two elements pushed with identical priority,
the earlier one is always returned first. -/
theorem c6_fifo_tie_break (d : Direction) (f : T → String)
    (ps : List (String × T)) (p : String) :
    ((ps.filter (fun x => x.1 == p)).map Prod.snd).Sublist (pop_all d (buildQ d f ps)).1 ∧
    ((ps.filter (fun x => x.1 == p)).map Prod.snd).Sublist (drainPop d (buildQ d f ps)) := by
  have hkey := bucketListOf_buildQ d f ps p
  constructor
  · rw [← hkey, bucketListOf_eq_lookup2]
    exact lookup2_sublist_pop_all d _ _ _
  · rw [← hkey]
    exact bucketListOf_sublist_drainPop d (invB_buildQ d f ps) p

/-- Claim C7: on every well-formed queue, `pop` and `top` fail with the
(single) EmptyQueue error exactly when `size = 0`, and a failing `pop`
leaves the queue state completely unchanged.  (`push`, `pop_all`, `empty`
and `size` are total functions of the embedding — they have no error
outcome at all.) -/
theorem c7_empty_queue_errors (d : Direction) (q : PQ T) (hq : invB q = true) :
    ((pop d q).1 = Except.error QErr.emptyQueue ↔ q.size = 0) ∧
    (top q = Except.error QErr.emptyQueue ↔ q.size = 0) ∧
    (q.size = 0 → (pop d q).2 = q) := by
  refine ⟨⟨?_, ?_⟩, ⟨?_, ?_⟩, ?_⟩
  · intro he
    by_contra hs
    obtain ⟨n, p, b, t, lt, q₁, hc, hb, hl, hpe, -, -, -⟩ := pop_analysis d hq hs
    rw [hpe] at he
    simp at he
  · intro hs
    rw [pop, if_pos hs]
  · intro he
    by_contra hs
    rw [invB_eq] at hq
    obtain ⟨n, p, b, l, hc, hb, hl, hlne⟩ := curOk_unpack hq.2.2.2.2 hs
    cases l with
    | nil => exact absurd rfl hlne
    | cons t lt =>
      rw [top, if_neg hs] at he
      simp only [curElem?, hc, hb, hl, List.getElem?_cons_zero] at he
      cases he
  · intro hs
    rw [top, if_pos hs]
  · intro hs
    rw [pop, if_pos hs]

/-- Witness for C7 at the empty queue. -/
theorem c7_witness :
    ((pop Direction.min (mkQueue String)).1 = Except.error QErr.emptyQueue
        ↔ (mkQueue String).size = 0) ∧
    (top (mkQueue String) = Except.error QErr.emptyQueue ↔ (mkQueue String).size = 0) ∧
    ((mkQueue String).size = 0 → (pop Direction.min (mkQueue String)).2 = mkQueue String) :=
  c7_empty_queue_errors Direction.min (mkQueue String) rfl

/-- Claim C8: on every well-formed queue, after any `push` the cursor
references index 0 — the front, i.e. oldest element — of an existing
priority bucket, and every successful `pop` removes exactly the front
element of the bucket the cursor references and leaves the cursor at the
front of a bucket again. -/
theorem c8_cursor_front_invariant (d : Direction) (f : T → String) (q : PQ T)
    (hq : invB q = true) :
    (∀ (p : String) (t : T), cursorFront (push d f p t q) = true) ∧
    (∀ (t : T) (q₁ : PQ T), pop d q = (Except.ok t, q₁) →
      cursorFront q₁ = true ∧
      ∃ n p b l, q.cur = some (n, p, 0) ∧ findKey n q.buckets = some b ∧
        findKey p b = some l ∧ l.head? = some t) := by
  have hq' := hq
  rw [invB_eq] at hq'
  obtain ⟨h₁, h₂, h₃, h₄, h₅⟩ := hq'
  constructor
  · intro p t
    exact cursorFront_of_curOk (curOk_push d f p t h₁ h₂ h₅)
  · intro t q₁ hpe
    by_cases hs : q.size = 0
    · rw [pop, if_pos hs] at hpe
      simp at hpe
    · obtain ⟨n, p, b, t₁, lt, q₂, hc, hb, hl, hpe₁, hinv, -, -⟩ := pop_analysis d hq hs
      rw [hpe₁] at hpe
      simp only [Prod.mk.injEq, Except.ok.injEq] at hpe
      obtain ⟨ht, hq₁⟩ := hpe
      refine ⟨?_, n, p, b, t₁ :: lt, hc, hb, hl, by rw [List.head?_cons, ht]⟩
      rw [← hq₁]
      exact cursorFront_of_curOk ((invB_eq q₂).mp hinv).2.2.2.2

/-- Witness for C8 at the concrete one-element queue `qOne`. -/
theorem c8_witness :
    cursorFront (push Direction.min id "7" "y" qOne) = true ∧
    (cursorFront (pop Direction.min qOne).2 = true ∧
      ∃ n p b l, qOne.cur = some (n, p, 0) ∧ findKey n qOne.buckets = some b ∧
        findKey p b = some l ∧ l.head? = some "x") :=
  ⟨(c8_cursor_front_invariant Direction.min id qOne rfl).1 "7" "y",
   (c8_cursor_front_invariant Direction.min id qOne rfl).2 "x" (pop Direction.min qOne).2 rfl⟩

/-- Claim C9: `pop_all` on an empty queue does not fail: it returns an empty
output sequence and leaves the queue empty with size 0 — unlike `pop` and
`top`, which fail with EmptyQueue on an empty queue. -/
theorem c9_pop_all_empty_queue (d : Direction) (q : PQ T) (hq : invB q = true)
    (hs : q.size = 0) :
    pop_all d q = ([], mkQueue T) ∧ emptyQ (pop_all d q).2 = true ∧
    (pop d q).1 = Except.error QErr.emptyQueue ∧
    top q = Except.error QErr.emptyQueue := by
  have hb := buckets_nil_of_size_zero hq hs
  refine ⟨?_, rfl, ?_, ?_⟩
  · rw [pop_all, hb]
    rfl
  · rw [pop, if_pos hs]
  · rw [top, if_pos hs]

/-- Witness for C9 at the freshly constructed queue. -/
theorem c9_witness :
    pop_all Direction.min (mkQueue String) = ([], mkQueue String) ∧
    emptyQ (pop_all Direction.min (mkQueue String)).2 = true ∧
    (pop Direction.min (mkQueue String)).1 = Except.error QErr.emptyQueue ∧
    top (mkQueue String) = Except.error QErr.emptyQueue :=
  c9_pop_all_empty_queue Direction.min (mkQueue String) rfl rfl

/-- Claim C10: `push` performs no validation of its priority argument: the
empty string is accepted for any element and creates the digit bucket keyed
by digit count 0 (concrete scenario, elements arbitrary); the empty
character list is lexicographically below every non-empty one; and under
the ascending policy the empty-string priority ranks as more extreme than
every non-empty priority in the `pop_all` ordering, universally: for every
push sequence, the elements pushed with priority "" form, in push order, a
prefix of the Min `pop_all` output, and for every non-empty priority `p`
the ""-run followed by the `p`-run embeds in order in that output (all
""-elements are drained before all `p`-elements). -/
theorem c10_empty_priority_accepted :
    (∀ t x : String,
      (pop_all Direction.min (buildQ Direction.min id [("5", x), ("", t)])).1 = [t, x] ∧
      findKey 0 (buildQ Direction.min id [("5", x), ("", t)]).buckets = some [("", [t])] ∧
      (buildQ Direction.min id [("5", x), ("", t)]).size = 2) ∧
    (∀ (c : Char) (cs : List Char), lexLt [] (c :: cs) = true) ∧
    (∀ (T : Type) (f : T → String) (ps : List (String × T)),
      ∃ rest, (pop_all Direction.min (buildQ Direction.min f ps)).1
        = (ps.filter (fun x => x.1 == "")).map Prod.snd ++ rest) ∧
    (∀ (T : Type) (f : T → String) (ps : List (String × T)) (p : String), p ≠ "" →
      (((ps.filter (fun x => x.1 == "")).map Prod.snd)
          ++ ((ps.filter (fun x => x.1 == p)).map Prod.snd)).Sublist
        (pop_all Direction.min (buildQ Direction.min f ps)).1) := by
  refine ⟨fun _ _ => ⟨rfl, rfl, rfl⟩, fun _ _ => rfl, ?_, ?_⟩
  · intro T f ps
    obtain ⟨rest, hr⟩ := min_pop_all_empty_prefix (invB_buildQ Direction.min f ps)
    refine ⟨rest, ?_⟩
    rw [hr, ← bucketListOf_buildQ Direction.min f ps ""]
    rfl
  · intro T f ps p hp
    have h := min_pop_all_empty_before (invB_buildQ Direction.min f ps) p hp
    rw [show ((ps.filter (fun x => x.1 == "")).map Prod.snd)
        = lookup2 (buildQ Direction.min f ps).buckets 0 ""
      from (bucketListOf_buildQ Direction.min f ps "").symm]
    rw [← bucketListOf_buildQ Direction.min f ps p]
    exact h

/-- Witness for C10's universal ranking part, at the push sequence
[("", "e"), ("5", "x")] and the non-empty priority "5". -/
theorem c10_witness :
    ((([("", "e"), ("5", "x")].filter (fun x => x.1 == "")).map Prod.snd)
        ++ (([("", "e"), ("5", "x")].filter (fun x => x.1 == "5")).map Prod.snd)).Sublist
      (pop_all Direction.min (buildQ Direction.min id [("", "e"), ("5", "x")])).1 :=
  c10_empty_priority_accepted.2.2.2 String id [("", "e"), ("5", "x")] "5" (by decide)

end Claims

end PQSpec
